import Mathlib

/-!
# Verification of the `typesystem` format converters

A shallow embedding of `src/typesystem/formats.py`: the six string/native-value
converters (`DateFormat`, `TimeFormat`, `DateTimeFormat`, `UUIDFormat`,
`URLFormat`, `EmailFormat`).

Modelling conventions:
* Python strings are `List Char`; character classes use the ASCII fragment of
  Python's `re` classes (`\d`, `\w`, `\s`).
* `validate` returns `Except VErr α`: `.format` and `.invalid` are the two
  `ValidationError` codes raised by the code, `.crash` models an uncaught
  `ValueError` escaping `validate` (e.g. `datetime.timezone(delta)` outside
  `±24h`, or `uuid.UUID(value)` on a string with trailing characters).
* `serialize` maps `Option native → Option (List Char)`, `none` being Python's
  `None`.
* The regex parsers below reproduce the exact patterns of the source, with
  Python's leftmost/greedy backtracking semantics (`re.match`, anchored at
  position 0); `$` accepts an optional final newline, as in Python.
-/

/-- The failure channels of `validate`: the two `ValidationError` codes of the
source plus `.crash` for an uncaught `ValueError`. -/
inductive VErr where
  | format
  | invalid
  | crash
  deriving DecidableEq

/-- The value of an ASCII decimal digit character (0 on non-digits; Python's
`int` is only ever applied to all-digit regex groups in the source). -/
def digitVal (c : Char) : Nat :=
  match c with
  | '0' => 0 | '1' => 1 | '2' => 2 | '3' => 3 | '4' => 4
  | '5' => 5 | '6' => 6 | '7' => 7 | '8' => 8 | '9' => 9
  | _ => 0

/-- The decimal digit character of `n < 10`. -/
def digitChar (n : Nat) : Char :=
  match n with
  | 0 => '0' | 1 => '1' | 2 => '2' | 3 => '3' | 4 => '4'
  | 5 => '5' | 6 => '6' | 7 => '7' | 8 => '8' | _ => '9'

/-- Python `int` on an all-digit string (base 10). -/
def natOfDigits (l : List Char) : Nat :=
  l.foldl (fun a c => 10 * a + digitVal c) 0

theorem digitChar_isDigit {n : Nat} (h : n < 10) : (digitChar n).isDigit = true := by
  interval_cases n <;> rfl

theorem digitVal_digitChar {n : Nat} (h : n < 10) : digitVal (digitChar n) = n := by
  interval_cases n <;> rfl

theorem digitChar_ne_plus {n : Nat} (h : n < 10) : digitChar n ≠ '+' := by
  interval_cases n <;> decide

/-- `"%02d"` of `n < 100`. -/
def pad2 (n : Nat) : List Char := [digitChar (n / 10), digitChar (n % 10)]

/-- `"%04d"` of `n < 10000`. -/
def pad4 (n : Nat) : List Char :=
  [digitChar (n / 1000), digitChar (n / 100 % 10), digitChar (n / 10 % 10), digitChar (n % 10)]

/-- `"%06d"` of `n < 1000000`. -/
def pad6 (n : Nat) : List Char :=
  [digitChar (n / 100000), digitChar (n / 10000 % 10), digitChar (n / 1000 % 10),
   digitChar (n / 100 % 10), digitChar (n / 10 % 10), digitChar (n % 10)]

theorem natOfDigits_pad2 {n : Nat} (h : n < 100) : natOfDigits (pad2 n) = n := by
  have h1 : n / 10 < 10 := by omega
  have h2 : n % 10 < 10 := by omega
  simp [pad2, natOfDigits, digitVal_digitChar h1, digitVal_digitChar h2]
  omega

theorem natOfDigits_pad6 {n : Nat} (h : n < 1000000) : natOfDigits (pad6 n) = n := by
  have h1 : n / 100000 < 10 := by omega
  have h2 : n / 10000 % 10 < 10 := by omega
  have h3 : n / 1000 % 10 < 10 := by omega
  have h4 : n / 100 % 10 < 10 := by omega
  have h5 : n / 10 % 10 < 10 := by omega
  have h6 : n % 10 < 10 := by omega
  simp [pad6, natOfDigits, digitVal_digitChar h1, digitVal_digitChar h2, digitVal_digitChar h3,
    digitVal_digitChar h4, digitVal_digitChar h5, digitVal_digitChar h6]
  omega

/-- `str.ljust(6, "0")`: right-pad with zeros to length 6. -/
def ljust6 (l : List Char) : List Char := l ++ List.replicate (6 - l.length) '0'

theorem ljust6_of_length_six {l : List Char} (h : l.length = 6) : ljust6 l = l := by
  simp [ljust6, h]

/-- `datetime.date` model. -/
structure PyDate where
  year : Nat
  month : Nat
  day : Nat
  deriving DecidableEq

/-- `datetime.time` model (always naive in the source: `tzinfo=None`). -/
structure PyTime where
  hour : Nat
  minute : Nat
  second : Nat
  microsecond : Nat
  deriving DecidableEq

/-- `datetime.datetime` model; `tz` is the fixed UTC offset in minutes
(`none` = naive).  Two aware Python datetimes with identical fields and equal
offsets are `==`-equal, so structural equality refines Python equality on the
values this module produces. -/
structure PyDateTime where
  year : Nat
  month : Nat
  day : Nat
  hour : Nat
  minute : Nat
  second : Nat
  microsecond : Nat
  tz : Option Int
  deriving DecidableEq

/-- Gregorian leap year, as in `datetime`. -/
def isLeapYear (y : Nat) : Bool := y % 4 = 0 && (y % 100 ≠ 0 || y % 400 = 0)

/-- Days in a month, as in `datetime`. -/
def daysInMonth (y m : Nat) : Nat :=
  if m = 2 then (if isLeapYear y then 29 else 28)
  else if m = 4 ∨ m = 6 ∨ m = 9 ∨ m = 11 then 30
  else 31

/-- The argument check of the `datetime.date` constructor. -/
def dateOk (y m d : Nat) : Bool :=
  1 ≤ y && y ≤ 9999 && 1 ≤ m && m ≤ 12 && 1 ≤ d && d ≤ daysInMonth y m

/-- The time-field argument check of the `datetime.time` / `datetime.datetime`
constructors. -/
def timeOk (h mi s μ : Nat) : Bool :=
  h < 24 && mi < 60 && s < 60 && μ < 1000000

/-- Match exactly two leading `\d` and return their value (`\d{2}`, or a greedy
`\d{1,2}` that managed to take two digits). -/
def d2? (l : List Char) : Option (Nat × List Char) :=
  match l with
  | a :: b :: t =>
    if a.isDigit && b.isDigit then some (10 * digitVal a + digitVal b, t) else none
  | _ => none

/-- Match exactly one leading `\d`. -/
def d1? (l : List Char) : Option (Nat × List Char) :=
  match l with
  | a :: t => if a.isDigit then some (digitVal a, t) else none
  | _ => none

/-- Match exactly four leading `\d` (`\d{4}`). -/
def d4? (l : List Char) : Option (Nat × List Char) :=
  match l with
  | a :: b :: c :: d :: t =>
    if a.isDigit && b.isDigit && c.isDigit && d.isDigit then
      some (1000 * digitVal a + 100 * digitVal b + 10 * digitVal c + digitVal d, t)
    else none
  | _ => none

/-- Match one leading literal character. -/
def ch? (c : Char) (l : List Char) : Option (List Char) :=
  match l with
  | a :: t => if a = c then some t else none
  | _ => none

/-- Python `$` in a non-MULTILINE pattern: end of string, or just before a
final newline. -/
def endOk (l : List Char) : Bool := l = [] || l = ['\n']

/-- Greedy `\d{1,2}` immediately followed by a required literal: try two
digits then the literal, else one digit then the literal (Python backtracking;
at most one branch can pass the literal). -/
def d12Lit? (c : Char) (l : List Char) : Option (Nat × List Char) :=
  (match d2? l with
   | some (n, r) => (ch? c r).map fun r2 => (n, r2)
   | none => none) <|>
  (match d1? l with
   | some (n, r) => (ch? c r).map fun r2 => (n, r2)
   | none => none)

/-- Greedy `\d{1,2}` immediately followed by the class `[T ]`
(the `DATETIME_REGEX` day / separator step). -/
def d12Sep? (l : List Char) : Option (Nat × List Char) :=
  (match d2? l with
   | some (n, r) =>
     match r with
     | a :: t => if a = 'T' ∨ a = ' ' then some (n, t) else none
     | [] => none
   | none => none) <|>
  (match d1? l with
   | some (n, r) =>
     match r with
     | a :: t => if a = 'T' ∨ a = ' ' then some (n, t) else none
     | [] => none
   | none => none)

/-- Greedy `\d{1,2}` immediately followed by `$` (the `DATE_REGEX` day step). -/
def d12End? (l : List Char) : Option Nat :=
  (match d2? l with
   | some (n, r) => if endOk r then some n else none
   | none => none) <|>
  (match d1? l with
   | some (n, r) => if endOk r then some n else none
   | none => none)

/-- `DATE_REGEX` = `(?P<year>\d{4})-(?P<month>\d{1,2})-(?P<day>\d{1,2})$`,
matched with `re.match` (anchored at position 0). -/
def dateMatch? (s : List Char) : Option (Nat × Nat × Nat) := do
  let (y, r) ← d4? s
  let r ← ch? '-' r
  let (mo, r) ← d12Lit? '-' r
  let dy ← d12End? r
  pure (y, mo, dy)

/-- `DateFormat.validate`. -/
def dateValidate (s : List Char) : Except VErr PyDate :=
  match dateMatch? s with
  | none => .error .format
  | some (y, mo, dy) =>
    if dateOk y mo dy then .ok ⟨y, mo, dy⟩ else .error .invalid

/-- `date.isoformat()`: `YYYY-MM-DD`. -/
def dateIso (v : PyDate) : List Char :=
  pad4 v.year ++ '-' :: pad2 v.month ++ '-' :: pad2 v.day

/-- `DateFormat.serialize`. -/
def dateSerialize (o : Option PyDate) : Option (List Char) :=
  match o with
  | none => none
  | some v => some (dateIso v)

/-- The optional fractional-second group of `TIME_REGEX`:
`(?:\.(?P<microsecond>\d{1,6})\d{0,6})?`.  In the unanchored time pattern the
group matches whenever a `.` is followed by at least one digit, and the
captured group is greedily the first (up to) six digits. -/
def timeFrac? (l : List Char) : Option (List Char) :=
  match l with
  | '.' :: t =>
    let d := t.takeWhile Char.isDigit
    if d.isEmpty then none else some (d.take 6)
  | _ => none

/-- The matched groups of `TIME_REGEX`. -/
structure TimeGroups where
  hour : Nat
  minute : Nat
  second : Option Nat
  microsecond : Option (List Char)
  deriving DecidableEq

/-- `TIME_REGEX` matched with `re.match`: the pattern is not end-anchored, so
trailing content after the greedy match is simply left unconsumed.  The
optional seconds group is taken greedily when `:` is followed by a digit, and
is absent otherwise. -/
def timeMatch? (s : List Char) : Option TimeGroups := do
  let (h, r) ← d12Lit? ':' s
  let (mi, r) ← (d2? r <|> d1? r)
  match ch? ':' r with
  | none => pure ⟨h, mi, none, none⟩
  | some r2 =>
    match d2? r2 <|> d1? r2 with
    | none => pure ⟨h, mi, none, none⟩
    | some (se, r3) => pure ⟨h, mi, some se, timeFrac? r3⟩

/-- `TimeFormat.validate`: regex match, `ljust(6, "0")` on a present
microsecond group, `int` conversion, `datetime.time` construction. -/
def timeValidate (s : List Char) : Except VErr PyTime :=
  match timeMatch? s with
  | none => .error .format
  | some g =>
    let se := g.second.getD 0
    let μ := match g.microsecond with
      | none => 0
      | some d => natOfDigits (ljust6 d)
    if timeOk g.hour g.minute se μ then .ok ⟨g.hour, g.minute, se, μ⟩ else .error .invalid

/-- `time.isoformat()`: `HH:MM:SS`, plus `.ffffff` only when the microsecond
component is non-zero. -/
def timeIso (v : PyTime) : List Char :=
  pad2 v.hour ++ ':' :: pad2 v.minute ++ ':' :: pad2 v.second ++
    (if v.microsecond = 0 then [] else '.' :: pad6 v.microsecond)

/-- `TimeFormat.serialize`. -/
def timeSerialize (o : Option PyTime) : Option (List Char) :=
  match o with
  | none => none
  | some v => some (timeIso v)

/-- The candidates for the optional trailing group
`(?P<tzinfo>Z|[+-]\d{2}(?::?\d{2})?)?` of `DATETIME_REGEX`, as
(captured group, remainder) pairs in Python's greedy backtracking order, the
group-absent candidate last. -/
def tzCands (s : List Char) : List (Option (List Char) × List Char) :=
  match s with
  | 'Z' :: t => [(some ['Z'], t), (none, s)]
  | c :: a :: b :: u =>
    if (c = '+' ∨ c = '-') ∧ a.isDigit ∧ b.isDigit then
      (match u with
       | ':' :: x :: y :: v =>
         if x.isDigit ∧ y.isDigit then [(some [c, a, b, ':', x, y], v)] else []
       | _ => []) ++
      (match u with
       | x :: y :: v =>
         if x.isDigit ∧ y.isDigit then [(some [c, a, b, x, y], v)] else []
       | _ => []) ++
      [(some [c, a, b], u), (none, s)]
    else [(none, s)]
  | _ => [(none, s)]

/-- Choose the first timezone candidate after which `$` matches; `none` when no
candidate (including the absent one) reaches the end of the string. -/
def pickTz (s : List Char) : Option (Option (List Char)) :=
  (tzCands s).findSome? fun p => if endOk p.2 then some p.1 else none

/-- Match `(?:\.(?P<microsecond>\d{1,6})\d{0,6})?(?P<tzinfo>...)?$` against the
whole remainder: the fractional group (greedy, then its absent alternative)
followed by a timezone candidate reaching the end.  In the anchored pattern the
fractional group can only succeed by consuming its entire leading digit run,
which is possible exactly when that run has 1 to 12 digits; the captured group
is then greedily the first (up to) six. -/
def dtFracTz? (r : List Char) : Option (Option (List Char) × Option (List Char)) :=
  (match r with
   | '.' :: t =>
     let d := t.takeWhile Char.isDigit
     if 1 ≤ d.length ∧ d.length ≤ 12 then
       match pickTz (t.drop d.length) with
       | some tz => some (some (d.take 6), tz)
       | none => none
     else none
   | _ => none) <|>
  ((pickTz r).map fun tz => (none, tz))

/-- Match `(?::(?P<second>\d{1,2})(?:\.(?P<microsecond>\d{1,6})\d{0,6})?)?`
followed by the timezone group and `$`, against the whole remainder after the
minute group, with Python's backtracking (two-digit seconds, then one-digit,
then the absent seconds group). -/
def dtTimeTail? (r : List Char) :
    Option (Option Nat × Option (List Char) × Option (List Char)) :=
  (match r with
   | ':' :: t =>
     (match d2? t with
      | some (se, r2) => (dtFracTz? r2).map fun p => (some se, p.1, p.2)
      | none => none) <|>
     (match d1? t with
      | some (se, r2) => (dtFracTz? r2).map fun p => (some se, p.1, p.2)
      | none => none)
   | _ => none) <|>
  ((pickTz r).map fun tz => (none, none, tz))

/-- The matched groups of `DATETIME_REGEX`. -/
structure DtGroups where
  year : Nat
  month : Nat
  day : Nat
  hour : Nat
  minute : Nat
  second : Option Nat
  microsecond : Option (List Char)
  tzinfo : Option (List Char)
  deriving DecidableEq

/-- `DATETIME_REGEX` matched with `re.match` (anchored by its final `$`).  The
minute group `\d{1,2}` is greedy with full backtracking into the rest of the
pattern. -/
def dtMatch? (s : List Char) : Option DtGroups := do
  let (y, r) ← d4? s
  let r ← ch? '-' r
  let (mo, r) ← d12Lit? '-' r
  let (dy, r) ← d12Sep? r
  let (h, r) ← d12Lit? ':' r
  (match d2? r with
   | some (mi, r2) => (dtTimeTail? r2).map fun p => ⟨y, mo, dy, h, mi, p.1, p.2.1, p.2.2⟩
   | none => none) <|>
  (match d1? r with
   | some (mi, r2) => (dtTimeTail? r2).map fun p => ⟨y, mo, dy, h, mi, p.1, p.2.1, p.2.2⟩
   | none => none)

/-- Lines 138-149 of `formats.py`: turn the captured `tzinfo` group into a UTC
offset in minutes.  `Z` is UTC; otherwise minutes are `int(tzinfo_str[-2:])`
when the group is longer than 3 characters (else 0), hours are
`int(tzinfo_str[1:3])`, and the sign comes from the first character.
`datetime.timezone(delta)` requires `-24h < delta < 24h` strictly and raises an
uncaught `ValueError` (`.crash`) otherwise — this happens outside the
`try` block. -/
def tzOffset? (o : Option (List Char)) : Except VErr (Option Int) :=
  match o with
  | none => .ok none
  | some tzs =>
    if tzs = ['Z'] then .ok (some 0)
    else
      let offMins : Nat := if tzs.length > 3 then natOfDigits (tzs.drop (tzs.length - 2)) else 0
      let offHours : Nat := natOfDigits ((tzs.drop 1).take 2)
      let delta : Int := (offHours : Int) * 60 + (offMins : Int)
      let delta : Int := if tzs.head? = some '-' then -delta else delta
      if -1440 < delta ∧ delta < 1440 then .ok (some delta) else .error .crash

/-- `DateTimeFormat.validate`. -/
def dtValidate (s : List Char) : Except VErr PyDateTime :=
  match dtMatch? s with
  | none => .error .format
  | some g =>
    match tzOffset? g.tzinfo with
    | .error e => .error e
    | .ok off =>
      let se := g.second.getD 0
      let μ := match g.microsecond with
        | none => 0
        | some d => natOfDigits (ljust6 d)
      if dateOk g.year g.month g.day && timeOk g.hour g.minute se μ then
        .ok ⟨g.year, g.month, g.day, g.hour, g.minute, se, μ, off⟩
      else .error .invalid

/-- The rendering of a fixed UTC offset in `datetime.isoformat()`:
sign, then `HH:MM` of the absolute offset. -/
def tzIso (off : Int) : List Char :=
  (if off < 0 then '-' else '+') :: pad2 (off.natAbs / 60) ++ ':' :: pad2 (off.natAbs % 60)

/-- `datetime.isoformat()`: date, `T`, time (with `.ffffff` only when the
microsecond component is non-zero), then the UTC offset when aware. -/
def dtIso (v : PyDateTime) : List Char :=
  pad4 v.year ++ '-' :: pad2 v.month ++ '-' :: pad2 v.day ++
    'T' :: pad2 v.hour ++ ':' :: pad2 v.minute ++ ':' :: pad2 v.second ++
    (if v.microsecond = 0 then [] else '.' :: pad6 v.microsecond) ++
    (match v.tz with
     | none => []
     | some off => tzIso off)

/-- `DateTimeFormat.serialize`: `isoformat()`, then the suffix `+00:00` (when
present) is rewritten to the single character `Z`. -/
def dtSerialize (o : Option PyDateTime) : Option (List Char) :=
  match o with
  | none => none
  | some v =>
    let s := dtIso v
    if List.isSuffixOf ['+', '0', '0', ':', '0', '0'] s then
      some (s.take (s.length - 6) ++ ['Z'])
    else some s

theorem d2_pad2 {n : Nat} (h : n < 100) (r : List Char) : d2? (pad2 n ++ r) = some (n, r) := by
  have h1 : n / 10 < 10 := by omega
  have h2 : n % 10 < 10 := by omega
  simp [pad2, d2?, digitChar_isDigit h1, digitChar_isDigit h2,
    digitVal_digitChar h1, digitVal_digitChar h2]
  omega

theorem d4_pad4 {n : Nat} (h : n < 10000) (r : List Char) : d4? (pad4 n ++ r) = some (n, r) := by
  have h1 : n / 1000 < 10 := by omega
  have h2 : n / 100 % 10 < 10 := by omega
  have h3 : n / 10 % 10 < 10 := by omega
  have h4 : n % 10 < 10 := by omega
  simp [pad4, d4?, digitChar_isDigit h1, digitChar_isDigit h2, digitChar_isDigit h3,
    digitChar_isDigit h4, digitVal_digitChar h1, digitVal_digitChar h2,
    digitVal_digitChar h3, digitVal_digitChar h4]
  omega

theorem ch_cons (c : Char) (t : List Char) : ch? c (c :: t) = some t := by
  simp [ch?]

theorem d12Lit_pad2 {n : Nat} (h : n < 100) (c : Char) (r : List Char) :
    d12Lit? c (pad2 n ++ c :: r) = some (n, r) := by
  simp [d12Lit?, d2_pad2 h, ch_cons]

theorem d12Sep_pad2 {n : Nat} (h : n < 100) (r : List Char) :
    d12Sep? (pad2 n ++ 'T' :: r) = some (n, r) := by
  simp [d12Sep?, d2_pad2 h]

theorem d12End_pad2 {n : Nat} (h : n < 100) : d12End? (pad2 n) = some n := by
  have := d2_pad2 h ([] : List Char)
  simp at this
  simp [d12End?, this, endOk]

/-- `pad6` consists of digits only, so `takeWhile isDigit` takes all of it when
the remainder does not begin with a digit. -/
theorem takeWhile_pad6 {μ : Nat} (hμ : μ < 1000000) {r : List Char}
    (hr : match r with | [] => True | c :: _ => c.isDigit = false) :
    (pad6 μ ++ r).takeWhile Char.isDigit = pad6 μ := by
  have h1 : μ / 100000 < 10 := by omega
  have h2 : μ / 10000 % 10 < 10 := by omega
  have h3 : μ / 1000 % 10 < 10 := by omega
  have h4 : μ / 100 % 10 < 10 := by omega
  have h5 : μ / 10 % 10 < 10 := by omega
  have h6 : μ % 10 < 10 := by omega
  match r with
  | [] =>
    simp [pad6, List.takeWhile, digitChar_isDigit h1, digitChar_isDigit h2, digitChar_isDigit h3,
      digitChar_isDigit h4, digitChar_isDigit h5, digitChar_isDigit h6]
  | c :: t =>
    simp only at hr
    simp [pad6, List.takeWhile, digitChar_isDigit h1, digitChar_isDigit h2, digitChar_isDigit h3,
      digitChar_isDigit h4, digitChar_isDigit h5, digitChar_isDigit h6, hr]

theorem daysInMonth_le {y m : Nat} : daysInMonth y m ≤ 31 := by
  unfold daysInMonth
  split <;> [split <;> omega; split <;> omega]

/-- `DateFormat` round-trip: re-validating the ISO rendering of a valid date
recovers the same value. -/
theorem dateValidate_iso {v : PyDate} (hv : dateOk v.year v.month v.day = true) :
    dateValidate (dateIso v) = .ok v := by
  have hb := hv
  simp [dateOk] at hb
  have hy : v.year < 10000 := by omega
  have hmo : v.month < 100 := by omega
  have hdy : v.day < 100 := by
    have := daysInMonth_le (y := v.year) (m := v.month)
    omega
  have hstep : dateMatch? (dateIso v) = some (v.year, v.month, v.day) := by
    simp [dateMatch?, dateIso, d4_pad4 hy, ch_cons, d12Lit_pad2 hmo, d12End_pad2 hdy]
  simp [dateValidate, hstep, hv]

/-- `TimeFormat` round-trip: re-validating the ISO rendering of a valid time
recovers the same value. -/
theorem timeValidate_iso {v : PyTime}
    (hv : timeOk v.hour v.minute v.second v.microsecond = true) :
    timeValidate (timeIso v) = .ok v := by
  obtain ⟨h, mi, s, μ⟩ := v
  simp only at hv ⊢
  have hb := hv
  simp [timeOk] at hb
  have hh : h < 100 := by omega
  have hmi : mi < 100 := by omega
  have hs : s < 100 := by omega
  have hd2s : d2? (pad2 s) = some (s, []) := by
    have := d2_pad2 hs ([] : List Char)
    simpa using this
  by_cases hμ : μ = 0
  · subst hμ
    have hstep : timeMatch? (timeIso ⟨h, mi, s, 0⟩) = some ⟨h, mi, some s, none⟩ := by
      simp [timeMatch?, timeIso, d12Lit_pad2 hh, d2_pad2 hmi, ch_cons, hd2s, timeFrac?]
    unfold timeValidate
    rw [hstep]
    simp [hv]
  · have hμlt : μ < 1000000 := by omega
    have ht : (pad6 μ).takeWhile Char.isDigit = pad6 μ := by
      have := takeWhile_pad6 hμlt (r := []) (by simp)
      simpa using this
    have hfrac : timeFrac? ('.' :: pad6 μ) = some (pad6 μ) := by
      simp only [timeFrac?]
      rw [ht]
      simp [pad6]
    have hstep : timeMatch? (timeIso ⟨h, mi, s, μ⟩)
        = some ⟨h, mi, some s, some (pad6 μ)⟩ := by
      simp only [timeIso, hμ, if_false, timeMatch?]
      simp [d12Lit_pad2 hh, d2_pad2 hmi, ch_cons, d2_pad2 hs, hfrac]
    have hlen : (pad6 μ).length = 6 := by simp [pad6]
    unfold timeValidate
    rw [hstep]
    simp [ljust6_of_length_six hlen, natOfDigits_pad6 hμlt, hv]

theorem digitChar_eq_zero {n : Nat} (h : n < 10) : digitChar n = '0' ↔ n = 0 := by
  interval_cases n <;> simp [digitChar]

/-- A list is a suffix of `x ++ y` with the length of `y` iff it equals `y`. -/
theorem suffix_iff_eq_of_length {l x y : List Char} (h : l.length = y.length) :
    l <:+ x ++ y ↔ l = y := by
  constructor
  · rintro ⟨t, ht⟩
    refine (List.append_inj ht ?_).2
    have := congrArg List.length ht
    simp at this
    omega
  · rintro rfl
    exact List.suffix_append _ _

theorem tzIso_length (off : Int) : (tzIso off).length = 6 := by
  simp [tzIso, pad2]

/-- `dtMatch?` on a canonically rendered prefix followed by an arbitrary tail
accepted by `dtFracTz?`. -/
theorem dtMatch_iso {y mo dy h mi se : Nat} {L : List Char}
    {M Z : Option (List Char)}
    (hy : y < 10000) (hmo : mo < 100) (hdy : dy < 100) (hh : h < 100) (hmi : mi < 100)
    (hse : se < 100) (hF : dtFracTz? L = some (M, Z)) :
    dtMatch? (pad4 y ++ '-' :: pad2 mo ++ '-' :: pad2 dy ++ 'T' :: pad2 h ++
      ':' :: pad2 mi ++ ':' :: pad2 se ++ L) = some ⟨y, mo, dy, h, mi, some se, M, Z⟩ := by
  have htail : dtTimeTail? (':' :: (pad2 se ++ L)) = some (some se, M, Z) := by
    simp [dtTimeTail?, d2_pad2 hse, hF]
  simp [dtMatch?, d4_pad4 hy, ch_cons, d12Lit_pad2 hmo, d12Sep_pad2 hdy, d12Lit_pad2 hh,
    d2_pad2 hmi, htail]

theorem pickTz_nil : pickTz [] = some none := rfl

theorem pickTz_Z : pickTz ['Z'] = some (some ['Z']) := rfl

theorem pickTz_tzIso {off : Int} (hb : -1440 < off ∧ off < 1440) :
    pickTz (tzIso off) = some (some (tzIso off)) := by
  have ha1 : off.natAbs / 60 / 10 < 10 := by omega
  have ha2 : off.natAbs / 60 % 10 < 10 := by omega
  have hb1 : off.natAbs % 60 / 10 < 10 := by omega
  have hb2 : off.natAbs % 60 % 10 < 10 := by omega
  by_cases hneg : off < 0
  · simp [tzIso, hneg, pad2, pickTz, tzCands, digitChar_isDigit ha1, digitChar_isDigit ha2,
      digitChar_isDigit hb1, digitChar_isDigit hb2, endOk]
  · simp [tzIso, hneg, pad2, pickTz, tzCands, digitChar_isDigit ha1, digitChar_isDigit ha2,
      digitChar_isDigit hb1, digitChar_isDigit hb2, endOk]

theorem fracTz_of_pick {TL : List Char} {TZ : Option (List Char)}
    (hTL : match TL with | [] => True | c :: _ => c ≠ '.')
    (hPick : pickTz TL = some TZ) : dtFracTz? TL = some (none, TZ) := by
  match TL with
  | [] => simp [dtFracTz?, hPick]
  | c :: t =>
    simp only at hTL
    unfold dtFracTz?
    have hm : (match c :: t with
        | '.' :: t =>
          let d := List.takeWhile Char.isDigit t
          if 1 ≤ d.length ∧ d.length ≤ 12 then
            match pickTz (List.drop d.length t) with
            | some tz => some (some (List.take 6 d), tz)
            | none => none
          else none
        | _ => none) = (none : Option (Option (List Char) × Option (List Char))) := by
      split
      · next heq =>
        rw [List.cons.injEq] at heq
        exact absurd heq.1 hTL
      · rfl
    rw [hm]
    simp [hPick]

theorem fracTz_frac {μ : Nat} {TL : List Char} {TZ : Option (List Char)}
    (hμ : μ < 1000000)
    (hTL : match TL with | [] => True | c :: _ => c.isDigit = false)
    (hPick : pickTz TL = some TZ) :
    dtFracTz? ('.' :: (pad6 μ ++ TL)) = some (some (pad6 μ), TZ) := by
  have hred : dtFracTz? ('.' :: (pad6 μ ++ TL)) =
      ((let d := (pad6 μ ++ TL).takeWhile Char.isDigit
        if 1 ≤ d.length ∧ d.length ≤ 12 then
          match pickTz ((pad6 μ ++ TL).drop d.length) with
          | some tz => some (some (d.take 6), tz)
          | none => none
        else none) <|>
        ((pickTz ('.' :: (pad6 μ ++ TL))).map fun tz => (none, tz))) := rfl
  have htw : (pad6 μ ++ TL).takeWhile Char.isDigit = pad6 μ := takeWhile_pad6 hμ hTL
  have hlen : (pad6 μ).length = 6 := by simp [pad6]
  have hdrop : (pad6 μ ++ TL).drop 6 = TL := by
    have := List.drop_left (pad6 μ) TL
    rwa [hlen] at this
  rw [hred]
  simp only [htw, hlen, hdrop]
  simp [hPick, List.take_of_length_le (le_of_eq hlen)]

theorem tzOffset_none : tzOffset? none = .ok none := rfl

theorem tzOffset_Z : tzOffset? (some ['Z']) = .ok (some 0) := rfl

theorem tzOffset_tzIso {off : Int} (hb : -1440 < off ∧ off < 1440) :
    tzOffset? (some (tzIso off)) = .ok (some off) := by
  have ha1 : off.natAbs / 60 / 10 < 10 := by omega
  have ha2 : off.natAbs / 60 % 10 < 10 := by omega
  have hb1 : off.natAbs % 60 / 10 < 10 := by omega
  have hb2 : off.natAbs % 60 % 10 < 10 := by omega
  have hb2x : off.natAbs % 10 < 10 := by omega
  by_cases hneg : off < 0
  · have hshape : tzIso off = ['-', digitChar (off.natAbs / 60 / 10), digitChar (off.natAbs / 60 % 10),
        ':', digitChar (off.natAbs % 60 / 10), digitChar (off.natAbs % 60 % 10)] := by
      simp [tzIso, hneg, pad2]
    rw [hshape]
    simp only [tzOffset?]
    rw [if_neg (by simp)]
    norm_num
    simp only [natOfDigits, List.foldl, digitVal_digitChar ha1, digitVal_digitChar ha2,
      digitVal_digitChar hb1, digitVal_digitChar hb2, digitVal_digitChar hb2x]
    split
    · simp only [Except.ok.injEq, Option.some.injEq]
      omega
    · next hcond =>
      exact absurd ⟨by omega, by omega⟩ hcond
  · have hshape : tzIso off = ['+', digitChar (off.natAbs / 60 / 10), digitChar (off.natAbs / 60 % 10),
        ':', digitChar (off.natAbs % 60 / 10), digitChar (off.natAbs % 60 % 10)] := by
      simp [tzIso, hneg, pad2]
    rw [hshape]
    simp only [tzOffset?]
    rw [if_neg (by simp)]
    norm_num
    simp only [if_neg (show ¬ (('+' : Char) = '-') by decide)]
    simp only [natOfDigits, List.foldl, digitVal_digitChar ha1, digitVal_digitChar ha2,
      digitVal_digitChar hb1, digitVal_digitChar hb2, digitVal_digitChar hb2x]
    split
    · simp only [Except.ok.injEq, Option.some.injEq]
      omega
    · next hcond =>
      exact absurd ⟨by omega, by omega⟩ hcond

/-- `DateTimeFormat` round-trip: serializing a valid datetime value and
re-validating recovers the same value. -/
theorem dtSerialize_validate {v : PyDateTime}
    (hd : dateOk v.year v.month v.day = true)
    (htm : timeOk v.hour v.minute v.second v.microsecond = true)
    (htz : ∀ off, v.tz = some off → -1440 < off ∧ off < 1440) :
    ∃ t, dtSerialize (some v) = some t ∧ dtValidate t = .ok v := by
  obtain ⟨y, mo, dy, h, mi, se, μ, tz⟩ := v
  simp only at hd htm htz ⊢
  have hd2 := hd
  have htm2 := htm
  simp [dateOk] at hd2
  simp [timeOk] at htm2
  have hy : y < 10000 := by omega
  have hmo : mo < 100 := by omega
  have hdy : dy < 100 := by
    have := daysInMonth_le (y := y) (m := mo)
    omega
  have hh : h < 100 := by omega
  have hmi : mi < 100 := by omega
  have hse : se < 100 := by omega
  have hμlt : μ < 1000000 := by omega
  have hμht : μ / 100000 < 10 := by omega
  have hvalid : (dateOk y mo dy && timeOk h mi se μ) = true := by simp [hd, htm]
  cases tz with
  | none =>
    refine ⟨dtIso ⟨y, mo, dy, h, mi, se, μ, none⟩, ?_, ?_⟩
    · by_cases hμ : μ = 0
      · have hB : dtIso ⟨y, mo, dy, h, mi, se, μ, none⟩ =
            (pad4 y ++ '-' :: pad2 mo ++ '-' :: pad2 dy ++ 'T' :: pad2 h) ++
              (':' :: pad2 mi ++ ':' :: pad2 se) := by
          simp [dtIso, hμ]
        have hsuf : List.isSuffixOf ['+', '0', '0', ':', '0', '0']
            (dtIso ⟨y, mo, dy, h, mi, se, μ, none⟩) = false := by
          rw [hB, Bool.eq_false_iff]
          intro hcon
          rw [List.isSuffixOf_iff_suffix,
            suffix_iff_eq_of_length (by simp [pad2])] at hcon
          simp [pad2] at hcon
        simp [dtSerialize, hsuf]
      · have hA : dtIso ⟨y, mo, dy, h, mi, se, μ, none⟩ =
            ((pad4 y ++ '-' :: pad2 mo ++ '-' :: pad2 dy ++ 'T' :: pad2 h ++
              ':' :: pad2 mi ++ ':' :: pad2 se) ++ ['.']) ++ pad6 μ := by
          simp [dtIso, hμ]
        have hsuf : List.isSuffixOf ['+', '0', '0', ':', '0', '0']
            (dtIso ⟨y, mo, dy, h, mi, se, μ, none⟩) = false := by
          rw [hA, Bool.eq_false_iff]
          intro hcon
          rw [List.isSuffixOf_iff_suffix,
            suffix_iff_eq_of_length (by simp [pad6])] at hcon
          have hhd : ('+' : Char) = digitChar (μ / 100000) := by
            have := congrArg (fun l => l.head?) hcon
            simpa [pad6] using this
          exact digitChar_ne_plus hμht hhd.symm
        simp [dtSerialize, hsuf]
    · by_cases hμ : μ = 0
      · subst hμ
        have hiso : dtIso ⟨y, mo, dy, h, mi, se, 0, none⟩ =
            pad4 y ++ '-' :: pad2 mo ++ '-' :: pad2 dy ++ 'T' :: pad2 h ++
              ':' :: pad2 mi ++ ':' :: pad2 se ++ [] := by
          simp [dtIso]
        have hmatch := dtMatch_iso (L := []) (M := none) (Z := none)
          hy hmo hdy hh hmi hse (fracTz_of_pick (by simp) pickTz_nil)
        rw [hiso]
        unfold dtValidate
        rw [hmatch]
        simp [tzOffset_none, hvalid]
      · have hiso : dtIso ⟨y, mo, dy, h, mi, se, μ, none⟩ =
            pad4 y ++ '-' :: pad2 mo ++ '-' :: pad2 dy ++ 'T' :: pad2 h ++
              ':' :: pad2 mi ++ ':' :: pad2 se ++ ('.' :: (pad6 μ ++ [])) := by
          simp [dtIso, hμ]
        have hmatch := dtMatch_iso (L := '.' :: (pad6 μ ++ [])) (M := some (pad6 μ))
          (Z := none) hy hmo hdy hh hmi hse (fracTz_frac hμlt (by simp) pickTz_nil)
        rw [hiso]
        unfold dtValidate
        rw [hmatch]
        have hlen6 : (pad6 μ).length = 6 := by simp [pad6]
        simp [tzOffset_none, hvalid, ljust6_of_length_six hlen6, natOfDigits_pad6 hμlt]
  | some off =>
    have hoff := htz off rfl
    by_cases hz : off = 0
    · subst hz
      have hC : dtIso ⟨y, mo, dy, h, mi, se, μ, some 0⟩ =
          (pad4 y ++ '-' :: pad2 mo ++ '-' :: pad2 dy ++ 'T' :: pad2 h ++
            ':' :: pad2 mi ++ ':' :: pad2 se ++ (if μ = 0 then [] else '.' :: pad6 μ)) ++
            ['+', '0', '0', ':', '0', '0'] := by
        have htz0 : tzIso 0 = ['+', '0', '0', ':', '0', '0'] := rfl
        by_cases hμ : μ = 0 <;> simp [dtIso, hμ, htz0]
      refine ⟨(pad4 y ++ '-' :: pad2 mo ++ '-' :: pad2 dy ++ 'T' :: pad2 h ++
            ':' :: pad2 mi ++ ':' :: pad2 se ++ (if μ = 0 then [] else '.' :: pad6 μ)) ++
            ['Z'], ?_, ?_⟩
      · have hsuf : List.isSuffixOf ['+', '0', '0', ':', '0', '0']
            (dtIso ⟨y, mo, dy, h, mi, se, μ, some 0⟩) = true := by
          rw [hC]
          exact List.isSuffixOf_iff_suffix.mpr (List.suffix_append _ _)
        have hlen : (dtIso ⟨y, mo, dy, h, mi, se, μ, some 0⟩).length - 6 =
            (pad4 y ++ '-' :: pad2 mo ++ '-' :: pad2 dy ++ 'T' :: pad2 h ++
              ':' :: pad2 mi ++ ':' :: pad2 se ++
              (if μ = 0 then [] else '.' :: pad6 μ)).length := by
          rw [hC]
          simp
          omega
        simp only [dtSerialize, hsuf, if_true]
        rw [hlen, hC, List.take_left]
      · by_cases hμ : μ = 0
        · have hiso : (pad4 y ++ '-' :: pad2 mo ++ '-' :: pad2 dy ++ 'T' :: pad2 h ++
              ':' :: pad2 mi ++ ':' :: pad2 se ++ (if μ = 0 then [] else '.' :: pad6 μ)) ++ ['Z'] =
              pad4 y ++ '-' :: pad2 mo ++ '-' :: pad2 dy ++ 'T' :: pad2 h ++
                ':' :: pad2 mi ++ ':' :: pad2 se ++ ['Z'] := by
            simp [hμ]
          have hmatch := dtMatch_iso (L := ['Z']) (M := none) (Z := some ['Z'])
            hy hmo hdy hh hmi hse (fracTz_of_pick (by simp) pickTz_Z)
          rw [hiso]
          unfold dtValidate
          rw [hmatch]
          subst hμ
          simp [tzOffset_Z, hvalid]
        · have hiso : (pad4 y ++ '-' :: pad2 mo ++ '-' :: pad2 dy ++ 'T' :: pad2 h ++
              ':' :: pad2 mi ++ ':' :: pad2 se ++ (if μ = 0 then [] else '.' :: pad6 μ)) ++ ['Z'] =
              pad4 y ++ '-' :: pad2 mo ++ '-' :: pad2 dy ++ 'T' :: pad2 h ++
                ':' :: pad2 mi ++ ':' :: pad2 se ++ ('.' :: (pad6 μ ++ ['Z'])) := by
            simp [hμ]
          have hmatch := dtMatch_iso (L := '.' :: (pad6 μ ++ ['Z'])) (M := some (pad6 μ))
            (Z := some ['Z']) hy hmo hdy hh hmi hse
            (fracTz_frac hμlt (by simp) pickTz_Z)
          rw [hiso]
          unfold dtValidate
          rw [hmatch]
          have hlen6 : (pad6 μ).length = 6 := by simp [pad6]
          simp [tzOffset_Z, hvalid, ljust6_of_length_six hlen6, natOfDigits_pad6 hμlt]
    · have hC : dtIso ⟨y, mo, dy, h, mi, se, μ, some off⟩ =
          (pad4 y ++ '-' :: pad2 mo ++ '-' :: pad2 dy ++ 'T' :: pad2 h ++
            ':' :: pad2 mi ++ ':' :: pad2 se ++ (if μ = 0 then [] else '.' :: pad6 μ)) ++
            tzIso off := by
        by_cases hμ : μ = 0 <;> simp [dtIso, hμ]
      have ha1 : off.natAbs / 60 / 10 < 10 := by omega
      have ha2 : off.natAbs / 60 % 10 < 10 := by omega
      have hb1 : off.natAbs % 60 / 10 < 10 := by omega
      have hb2 : off.natAbs % 60 % 10 < 10 := by omega
      have hsuf : List.isSuffixOf ['+', '0', '0', ':', '0', '0']
          (dtIso ⟨y, mo, dy, h, mi, se, μ, some off⟩) = false := by
        rw [hC, Bool.eq_false_iff]
        intro hcon
        rw [List.isSuffixOf_iff_suffix,
          suffix_iff_eq_of_length (by rw [tzIso_length]; rfl)] at hcon
        by_cases hneg : off < 0
        · simp [tzIso, hneg, pad2] at hcon
        · simp [tzIso, hneg, pad2] at hcon
          have e1 := (digitChar_eq_zero ha1).mp hcon.1.symm
          have e2 := (digitChar_eq_zero ha2).mp hcon.2.1.symm
          have e3 := (digitChar_eq_zero hb1).mp hcon.2.2.1.symm
          have e4 := (digitChar_eq_zero hb2).mp hcon.2.2.2.symm
          omega
      have hhead_dot : (match tzIso off with | [] => True | c :: _ => c ≠ '.') := by
        by_cases hneg : off < 0 <;> simp [tzIso, hneg]
      have hhead_dig : (match tzIso off with | [] => True | c :: _ => c.isDigit = false) := by
        by_cases hneg : off < 0 <;> simp [tzIso, hneg]
      refine ⟨dtIso ⟨y, mo, dy, h, mi, se, μ, some off⟩, by simp [dtSerialize, hsuf], ?_⟩
      by_cases hμ : μ = 0
      · have hiso : dtIso ⟨y, mo, dy, h, mi, se, μ, some off⟩ =
            pad4 y ++ '-' :: pad2 mo ++ '-' :: pad2 dy ++ 'T' :: pad2 h ++
              ':' :: pad2 mi ++ ':' :: pad2 se ++ tzIso off := by
          simp [dtIso, hμ]
        have hmatch := dtMatch_iso (L := tzIso off) (M := none) (Z := some (tzIso off))
          hy hmo hdy hh hmi hse (fracTz_of_pick hhead_dot (pickTz_tzIso hoff))
        rw [hiso]
        unfold dtValidate
        rw [hmatch]
        subst hμ
        simp [tzOffset_tzIso hoff, hvalid]
      · have hiso : dtIso ⟨y, mo, dy, h, mi, se, μ, some off⟩ =
            pad4 y ++ '-' :: pad2 mo ++ '-' :: pad2 dy ++ 'T' :: pad2 h ++
              ':' :: pad2 mi ++ ':' :: pad2 se ++ ('.' :: (pad6 μ ++ tzIso off)) := by
          simp [dtIso, hμ]
        have hmatch := dtMatch_iso (L := '.' :: (pad6 μ ++ tzIso off)) (M := some (pad6 μ))
          (Z := some (tzIso off)) hy hmo hdy hh hmi hse
          (fracTz_frac hμlt hhead_dig (pickTz_tzIso hoff))
        rw [hiso]
        unfold dtValidate
        rw [hmatch]
        have hlen6 : (pad6 μ).length = 6 := by simp [pad6]
        simp [tzOffset_tzIso hoff, hvalid, ljust6_of_length_six hlen6, natOfDigits_pad6 hμlt]

theorem dateValidate_ok_valid {s : List Char} {v : PyDate} (h : dateValidate s = .ok v) :
    dateOk v.year v.month v.day = true := by
  unfold dateValidate at h
  cases hm : dateMatch? s with
  | none =>
    rw [hm] at h
    simp at h
  | some ymd =>
    obtain ⟨y, mo, dy⟩ := ymd
    rw [hm] at h
    simp only at h
    by_cases hok : dateOk y mo dy = true
    · rw [if_pos hok] at h
      cases h
      exact hok
    · rw [if_neg hok] at h
      simp at h

theorem timeValidate_ok_valid {s : List Char} {v : PyTime} (h : timeValidate s = .ok v) :
    timeOk v.hour v.minute v.second v.microsecond = true := by
  unfold timeValidate at h
  cases hm : timeMatch? s with
  | none =>
    rw [hm] at h
    simp at h
  | some g =>
    rw [hm] at h
    simp only at h
    by_cases hok : timeOk g.hour g.minute (g.second.getD 0)
        (match g.microsecond with
         | none => 0
         | some d => natOfDigits (ljust6 d)) = true
    · rw [if_pos hok] at h
      cases h
      exact hok
    · rw [if_neg hok] at h
      simp at h

theorem tzOffset_ok_bounds {o : Option (List Char)} {off : Int}
    (h : tzOffset? o = .ok (some off)) : -1440 < off ∧ off < 1440 := by
  unfold tzOffset? at h
  cases o with
  | none => simp at h
  | some tzs =>
    simp only at h
    by_cases hZ : tzs = ['Z']
    · rw [if_pos hZ] at h
      simp at h
      omega
    · rw [if_neg hZ] at h
      repeat' split at h
      all_goals
        first
          | (simp only [Except.ok.injEq, Option.some.injEq] at h
             omega)
          | simp at h

theorem dtValidate_ok_valid {s : List Char} {v : PyDateTime} (h : dtValidate s = .ok v) :
    dateOk v.year v.month v.day = true ∧
      timeOk v.hour v.minute v.second v.microsecond = true ∧
      ∀ off, v.tz = some off → -1440 < off ∧ off < 1440 := by
  unfold dtValidate at h
  cases hm : dtMatch? s with
  | none =>
    rw [hm] at h
    simp at h
  | some g =>
    rw [hm] at h
    simp only at h
    cases ho : tzOffset? g.tzinfo with
    | error e =>
      rw [ho] at h
      simp at h
    | ok off2 =>
      rw [ho] at h
      simp only at h
      by_cases hok : (dateOk g.year g.month g.day &&
          timeOk g.hour g.minute (g.second.getD 0)
            (match g.microsecond with
             | none => 0
             | some d => natOfDigits (ljust6 d))) = true
      · rw [if_pos hok] at h
        cases h
        simp only [Bool.and_eq_true] at hok
        refine ⟨hok.1, hok.2, ?_⟩
        intro off3 hoff3
        simp only at hoff3
        rw [hoff3] at ho
        exact tzOffset_ok_bounds ho
      · rw [if_neg hok] at h
        simp at h

/-- The value of a lowercase hex digit (`[0-9a-f]`), `none` on any other
character. -/
def hexCharVal? (c : Char) : Option Nat :=
  match c with
  | '0' => .some 0 | '1' => .some 1 | '2' => .some 2 | '3' => .some 3
  | '4' => .some 4 | '5' => .some 5 | '6' => .some 6 | '7' => .some 7
  | '8' => .some 8 | '9' => .some 9 | 'a' => .some 10 | 'b' => .some 11
  | 'c' => .some 12 | 'd' => .some 13 | 'e' => .some 14 | 'f' => .some 15
  | _ => .none

/-- The character class `[0-9a-f]` of `UUID_REGEX`. -/
def isLHex (c : Char) : Bool := (hexCharVal? c).isSome

/-- Match exactly `n` leading `[0-9a-f]` characters (`[0-9a-f]{n}`). -/
def hexRun (n : Nat) (l : List Char) : Option (List Char × List Char) :=
  match n, l with
  | 0, l => some ([], l)
  | n + 1, c :: t =>
    if isLHex c then (hexRun n t).map (fun p => (c :: p.1, p.2)) else none
  | _ + 1, [] => none

/-- `UUID_REGEX` matched with `re.match`: the canonical lowercase
`8-4-4-4-12` layout with version nibble `[1-5]` and variant nibble `[89ab]`,
anchored at position 0 only (no `$`: trailing content is ignored by the
match).  Returns the 32 hex digits of the matched 36-character prefix. -/
def uuidMatch? (s : List Char) : Option (List Char) :=
  match hexRun 8 s with
  | none => none
  | some (g1, r) =>
    match ch? '-' r with
    | none => none
    | some r =>
      match hexRun 4 r with
      | none => none
      | some (g2, r) =>
        match ch? '-' r with
        | none => none
        | some r =>
          match r with
          | [] => none
          | ver :: r =>
            if ver = '1' ∨ ver = '2' ∨ ver = '3' ∨ ver = '4' ∨ ver = '5' then
              match hexRun 3 r with
              | none => none
              | some (g3, r) =>
                match ch? '-' r with
                | none => none
                | some r =>
                  match r with
                  | [] => none
                  | w :: r =>
                    if w = '8' ∨ w = '9' ∨ w = 'a' ∨ w = 'b' then
                      match hexRun 3 r with
                      | none => none
                      | some (g4, r) =>
                        match ch? '-' r with
                        | none => none
                        | some r =>
                          match hexRun 12 r with
                          | none => none
                          | some (g5, _r) =>
                            some (g1 ++ g2 ++ ver :: g3 ++ w :: g4 ++ g5)
                    else none
            else none

/-- Python `str.replace(pat, "")` for a non-empty pattern `p :: ps`:
left-to-right, non-overlapping removal of every occurrence. -/
def pyReplaceDelF (p : Char) (ps : List Char) : Nat → List Char → List Char
  | _, [] => []
  | 0, l => l
  | n + 1, c :: t =>
    if (p :: ps).isPrefixOf (c :: t) then pyReplaceDelF p ps n (t.drop ps.length)
    else c :: pyReplaceDelF p ps n t

/-- Python `str.replace(pat, "")` for the non-empty pattern `p :: ps`: each
occurrence is skipped and the scan continues after it.  The fuel of
`pyReplaceDelF` only has to dominate the length of the list, and
`pyReplaceDelF p ps n` consumes at least one character of the list per step,
so `l.length` is always enough. -/
def pyReplaceDel (p : Char) (ps : List Char) (l : List Char) : List Char :=
  pyReplaceDelF p ps l.length l

/-- Python `str.strip(cs)`: remove any of the characters of `cs` from both
ends. -/
def pyStripBoth (cs : List Char) (l : List Char) : List Char :=
  ((l.dropWhile (fun c => cs.contains c)).reverse.dropWhile
    (fun c => cs.contains c)).reverse

/-- The hex-digit-and-underscore tail of a Python `int(x, 16)` literal, after
its first digit: single underscores are allowed between digits only. -/
def hexAfterDigit? (acc : Nat) : List Char → Option Nat
  | [] => some acc
  | c :: t =>
    if c = '_' then
      match t with
      | c2 :: t2 =>
        match hexCharVal? c2 with
        | some v => hexAfterDigit? (16 * acc + v) t2
        | none => none
      | [] => none
    else
      match hexCharVal? c with
      | some v => hexAfterDigit? (16 * acc + v) t
      | none => none

/-- A run of hex digits with embedded single underscores, starting with a
digit. -/
def hexStart? (l : List Char) : Option Nat :=
  match l with
  | c :: t =>
    match hexCharVal? c with
    | some v => hexAfterDigit? v t
    | none => none
  | [] => none

/-- The whitespace stripped by Python's `int()` (ASCII fragment). -/
def pyWs (c : Char) : Bool :=
  c == ' ' || c == '\t' || c == '\n' || c == '\r' || c == '\x0b' || c == '\x0c'

/-- Python `int(x, 16)`: optional surrounding whitespace, optional sign,
optional `0x`/`0X` prefix (an underscore may follow the prefix directly), then
hex digits with single underscores between digits.  Case of the digits:
`uuid.UUID` only ever reaches this with digits that passed through the
lowercase-only regex (see `uuidCtor_of_match`), so only lowercase digits are
modelled. -/
def pyIntHex (l : List Char) : Option Int :=
  let l1 := (((l.dropWhile pyWs).reverse.dropWhile pyWs).reverse)
  let signBody : Bool × List Char :=
    match l1 with
    | '-' :: t => (true, t)
    | '+' :: t => (false, t)
    | _ => (false, l1)
  let body := signBody.2
  let v? : Option Nat :=
    match body with
    | '0' :: 'x' :: t =>
      (match t with
       | '_' :: u => hexStart? u
       | _ => hexStart? t)
    | '0' :: 'X' :: t =>
      (match t with
       | '_' :: u => hexStart? u
       | _ => hexStart? t)
    | _ => hexStart? body
  match v? with
  | some n => some (if signBody.1 then -(n : Int) else (n : Int))
  | none => none

/-- `uuid.UUID(hex=s)` (CPython): remove `urn:` and `uuid:`, strip `{}` from
the ends, remove `-`, require exactly 32 hex characters, convert with
`int(hex, 16)` and range-check to 128 bits.  `none` models the `ValueError`
raised on failure. -/
def uuidCtor (s : List Char) : Option Nat :=
  let h1 := pyReplaceDel 'u' ['r', 'n', ':'] s
  let h2 := pyReplaceDel 'u' ['u', 'i', 'd', ':'] h1
  let h3 := pyStripBoth ['{', '}'] h2
  let h4 := h3.filter (fun c => !(c = '-'))
  if h4.length = 32 then
    match pyIntHex h4 with
    | some v => if 0 ≤ v ∧ v < (2 : Int) ^ 128 then some v.toNat else none
    | none => none
  else none

/-- `UUIDFormat.validate`: `UUID_REGEX.match(value)` (format error when there
is no match at the start), then `uuid.UUID(value)` on the whole string — whose
`ValueError` is not caught (`.crash`). -/
def uuidValidate (s : List Char) : Except VErr Nat :=
  match uuidMatch? s with
  | none => .error .format
  | some _ =>
    match uuidCtor s with
    | some u => .ok u
    | none => .error .crash

/-- The lowercase hex digit of `n < 16`. -/
def hexDigitChar (n : Nat) : Char :=
  match n with
  | 0 => '0' | 1 => '1' | 2 => '2' | 3 => '3' | 4 => '4'
  | 5 => '5' | 6 => '6' | 7 => '7' | 8 => '8' | 9 => '9'
  | 10 => 'a' | 11 => 'b' | 12 => 'c' | 13 => 'd' | 14 => 'e' | _ => 'f'

/-- `"%0*x"`: the `w`-digit lowercase hex rendering of `n`. -/
def hexRender (w : Nat) (n : Nat) : List Char :=
  match w with
  | 0 => []
  | w + 1 => hexRender w (n / 16) ++ [hexDigitChar (n % 16)]

/-- The canonical hyphen-grouped form of 32 hex digits. -/
def uuidGroup (d : List Char) : List Char :=
  d.take 8 ++ '-' :: (d.drop 8).take 4 ++ '-' :: (d.drop 12).take 4 ++
    '-' :: (d.drop 16).take 4 ++ '-' :: d.drop 20

/-- `str(uuid.UUID)`: the canonical lowercase hyphenated rendering. -/
def uuidStr (u : Nat) : List Char := uuidGroup (hexRender 32 u)

/-- `UUIDFormat.serialize`: `str(obj)` with no `None` guard — `serialize(None)`
is the four-character string `"None"`. -/
def uuidSerialize (o : Option Nat) : Option (List Char) :=
  match o with
  | none => some ['N', 'o', 'n', 'e']
  | some u => some (uuidStr u)

/-- The value of a hex character, defaulting to 0. -/
def hexCharValD (c : Char) : Nat := (hexCharVal? c).getD 0

/-- The value of a string of hex digits (most significant first). -/
def hexVal (l : List Char) : Nat :=
  l.foldl (fun a c => 16 * a + hexCharValD c) 0

theorem hexCharValD_lt (c : Char) : hexCharValD c < 16 := by
  unfold hexCharValD hexCharVal?
  split <;> simp

theorem hexCharVal_hexDigitChar {n : Nat} (h : n < 16) :
    hexCharVal? (hexDigitChar n) = some n := by
  interval_cases n <;> rfl

theorem isLHex_hexDigitChar {n : Nat} (h : n < 16) : isLHex (hexDigitChar n) = true := by
  simp [isLHex, hexCharVal_hexDigitChar h]

theorem hexDigitChar_valD {c : Char} (h : isLHex c = true) :
    hexDigitChar (hexCharValD c) = c := by
  unfold isLHex at h
  rcases hv : hexCharVal? c with _ | v
  · rw [hv] at h
    simp at h
  · unfold hexCharValD
    rw [hv]
    simp only [Option.getD_some]
    unfold hexCharVal? at hv
    split at hv <;> simp_all <;> (subst hv; rfl)

theorem isLHex_ne_lemmas {c : Char} (h : isLHex c = true) :
    c ≠ 'u' ∧ c ≠ '{' ∧ c ≠ '}' ∧ c ≠ '-' ∧ c ≠ '+' ∧ c ≠ '_' ∧ c ≠ 'x' ∧ c ≠ 'X' ∧
      pyWs c = false := by
  have hne : ∀ b : Char, isLHex b = false → c ≠ b := by
    intro b hb hcb
    rw [hcb, hb] at h
    exact Bool.false_ne_true h
  refine ⟨hne _ rfl, hne _ rfl, hne _ rfl, hne _ rfl, hne _ rfl, hne _ rfl, hne _ rfl,
    hne _ rfl, ?_⟩
  simp [pyWs, hne ' ' rfl, hne '\t' rfl, hne '\n' rfl, hne '\r' rfl,
    hne '\x0b' rfl, hne '\x0c' rfl]

/-- `hexVal` of a snoc, via `foldl_append`. -/
theorem hexVal_append_singleton (l : List Char) (c : Char) :
    hexVal (l ++ [c]) = 16 * hexVal l + hexCharValD c := by
  simp [hexVal, List.foldl_append]

theorem hexVal_lt (l : List Char) : hexVal l < 16 ^ l.length := by
  induction l using List.reverseRecOn with
  | nil => simp [hexVal]
  | append_singleton l c ih =>
    rw [hexVal_append_singleton]
    have := hexCharValD_lt c
    simp only [List.length_append, List.length_cons, List.length_nil, pow_succ]
    omega

/-- Rendering the value of a lowercase hex string at its own width is the
identity. -/
theorem hexRender_hexVal {d : List Char} (hall : ∀ c ∈ d, isLHex c = true) :
    hexRender d.length (hexVal d) = d := by
  induction d using List.reverseRecOn with
  | nil => simp [hexRender, hexVal]
  | append_singleton l c ih =>
    have hc : isLHex c = true := hall c (by simp)
    have hl : ∀ x ∈ l, isLHex x = true := fun x hx => hall x (by simp [hx])
    have hcv := hexCharValD_lt c
    rw [hexVal_append_singleton]
    have hlen : (l ++ [c]).length = l.length + 1 := by simp
    rw [hlen]
    unfold hexRender
    have hdiv : (16 * hexVal l + hexCharValD c) / 16 = hexVal l := by omega
    have hmod : (16 * hexVal l + hexCharValD c) % 16 = hexCharValD c := by omega
    rw [hdiv, hmod, ih hl, hexDigitChar_valD hc]

theorem hexAfterDigit_all {t : List Char} (h : ∀ c ∈ t, isLHex c = true) (acc : Nat) :
    hexAfterDigit? acc t = some (t.foldl (fun a c => 16 * a + hexCharValD c) acc) := by
  induction t generalizing acc with
  | nil => simp [hexAfterDigit?]
  | cons a t ih =>
    have ha : isLHex a = true := h a (by simp)
    have ht : ∀ c ∈ t, isLHex c = true := fun c hc => h c (by simp [hc])
    have hne := isLHex_ne_lemmas ha
    obtain ⟨va, hva⟩ : ∃ v, hexCharVal? a = some v := Option.isSome_iff_exists.mp ha
    unfold hexAfterDigit?
    rw [if_neg hne.2.2.2.2.2.1, hva]
    simp only [ih ht, List.foldl]
    simp [hexCharValD, hva]

/-- `int(x, 16)` on a non-empty all-lowercase-hex string is its hex value. -/
theorem pyIntHex_all {d : List Char} (hne : d ≠ []) (hall : ∀ c ∈ d, isLHex c = true) :
    pyIntHex d = some (hexVal d : Int) := by
  obtain ⟨a, t, rfl⟩ : ∃ a t, d = a :: t := by
    cases d with
    | nil => exact absurd rfl hne
    | cons a t => exact ⟨a, t, rfl⟩
  have ha : isLHex a = true := hall a (by simp)
  have hna := isLHex_ne_lemmas ha
  have hstrip1 : (a :: t).dropWhile pyWs = a :: t :=
    List.dropWhile_cons_of_neg (by simp [hna.2.2.2.2.2.2.2.2])
  have hlast : isLHex ((a :: t).getLast (by simp)) = true :=
    hall _ (List.getLast_mem (by simp))
  have hstrip2 : (a :: t).reverse.dropWhile pyWs = (a :: t).reverse := by
    have hrev : (a :: t).reverse = (a :: t).getLast (by simp) :: ((a :: t).dropLast).reverse := by
      rw [← List.reverse_concat]
      congr 1
      exact (List.dropLast_concat_getLast (by simp)).symm
    rw [hrev]
    exact List.dropWhile_cons_of_neg (by simp [(isLHex_ne_lemmas hlast).2.2.2.2.2.2.2.2])
  have ht : ∀ c ∈ t, isLHex c = true := fun c hc => hall c (by simp [hc])
  obtain ⟨va, hva⟩ : ∃ v, hexCharVal? a = some v := Option.isSome_iff_exists.mp ha
  have hsign : (match a :: t with
      | '-' :: t => (true, t)
      | '+' :: t => (false, t)
      | _ => (false, a :: t)) = (false, a :: t) := by
    split
    · next heq =>
      rw [List.cons.injEq] at heq
      exact absurd heq.1 hna.2.2.2.1
    · next heq =>
      rw [List.cons.injEq] at heq
      exact absurd heq.1 hna.2.2.2.2.1
    · rfl
  have hstart : hexStart? (a :: t) = some (hexVal (a :: t)) := by
    simp only [hexStart?]
    rw [hva]
    simp only [hexAfterDigit_all ht]
    simp [hexVal, List.foldl, hexCharValD, hva]
  have hv2 : (match a :: t with
      | '0' :: 'x' :: t =>
        (match t with
         | '_' :: u => hexStart? u
         | _ => hexStart? t)
      | '0' :: 'X' :: t =>
        (match t with
         | '_' :: u => hexStart? u
         | _ => hexStart? t)
      | _ => hexStart? (a :: t)) = some (hexVal (a :: t)) := by
    split
    · next heq =>
      rw [List.cons.injEq] at heq
      have hx : ('x' : Char) ∈ t := by
        rw [heq.2]
        simp
      have := isLHex_ne_lemmas (ht _ hx)
      exact absurd rfl this.2.2.2.2.2.2.1
    · next heq =>
      rw [List.cons.injEq] at heq
      have hx : ('X' : Char) ∈ t := by
        rw [heq.2]
        simp
      have := isLHex_ne_lemmas (ht _ hx)
      exact absurd rfl this.2.2.2.2.2.2.2.1
    · exact hstart
  unfold pyIntHex
  rw [hstrip1, hstrip2]
  simp only [List.reverse_reverse]
  simp only [hsign, hv2]
  simp

theorem pyReplaceDelF_append {p : Char} {q : List Char} (k : Nat) {pre : List Char}
    (r : List Char) (hpre : ∀ c ∈ pre, c ≠ p) :
    pyReplaceDelF p q (pre.length + k) (pre ++ r) = pre ++ pyReplaceDelF p q k r := by
  induction pre with
  | nil => simp
  | cons c t ih =>
    have hc : c ≠ p := hpre c (by simp)
    have ht : ∀ x ∈ t, x ≠ p := fun x hx => hpre x (by simp [hx])
    have hlen : (c :: t).length + k = (t.length + k) + 1 := by simp; omega
    rw [List.cons_append, hlen, pyReplaceDelF]
    rw [if_neg]
    · rw [ih ht, List.cons_append]
    · intro hcon
      have hpc : p = c := by
        have hpref := List.isPrefixOf_iff_prefix.mp hcon
        obtain ⟨u, hu⟩ := hpref
        rw [List.cons_append] at hu
        exact (List.cons.injEq _ _ _ _ ▸ hu).1
      exact hc hpc.symm

theorem pyReplaceDel_append {p : Char} {q pre r : List Char}
    (hpre : ∀ c ∈ pre, c ≠ p) :
    pyReplaceDel p q (pre ++ r) = pre ++ pyReplaceDel p q r := by
  unfold pyReplaceDel
  rw [List.length_append]
  exact pyReplaceDelF_append r.length r hpre

theorem dropWhile_head_stop {f : Char → Bool} {l : List Char} {c : Char}
    (hh : l.head? = some c) (hc : f c = false) : l.dropWhile f = l := by
  cases l with
  | nil => simp at hh
  | cons a t =>
    simp at hh
    subst hh
    exact List.dropWhile_cons_of_neg (by simp [hc])

theorem pyStripBoth_append {cs pre r : List Char} {c0 c1 : Char}
    (hh : pre.head? = some c0) (hc0 : cs.contains c0 = false)
    (hl : pre.getLast? = some c1) (hc1 : cs.contains c1 = false) :
    ∃ r2, pyStripBoth cs (pre ++ r) = pre ++ r2 := by
  have hh2 : (pre ++ r).head? = some c0 := by
    cases pre with
    | nil => simp at hh
    | cons a t =>
      simp at hh ⊢
      exact hh
  have hstep1 : (pre ++ r).dropWhile (fun c => cs.contains c) = pre ++ r :=
    dropWhile_head_stop hh2 (by simpa using hc0)
  unfold pyStripBoth
  rw [hstep1, List.reverse_append]
  rw [List.dropWhile_append]
  have hrevh : pre.reverse.head? = some c1 := by
    rw [List.head?_reverse]
    exact hl
  have hstop : pre.reverse.dropWhile (fun c => cs.contains c) = pre.reverse :=
    dropWhile_head_stop hrevh (by simpa using hc1)
  by_cases hem : (r.reverse.dropWhile fun c => cs.contains c).isEmpty
  · rw [if_pos hem, hstop]
    exact ⟨[], by simp⟩
  · rw [if_neg hem]
    exact ⟨(r.reverse.dropWhile fun c => cs.contains c).reverse, by simp⟩

theorem hexRun_build {a : List Char} (r : List Char) (hall : ∀ c ∈ a, isLHex c = true) :
    hexRun a.length (a ++ r) = some (a, r) := by
  induction a with
  | nil => simp [hexRun]
  | cons c t ih =>
    have hc : isLHex c = true := hall c (by simp)
    have ht : ∀ x ∈ t, isLHex x = true := fun x hx => hall x (by simp [hx])
    simp only [List.length_cons, List.cons_append, hexRun, hc, if_true, List.append_eq]
    rw [ih ht]
    rfl

theorem hexRun_inv {n : Nat} {l a r : List Char} (h : hexRun n l = some (a, r)) :
    l = a ++ r ∧ a.length = n ∧ ∀ c ∈ a, isLHex c = true := by
  induction n generalizing l a r with
  | zero =>
    simp [hexRun] at h
    obtain ⟨ha, hl⟩ := h
    subst ha
    subst hl
    simp
  | succ n ih =>
    cases l with
    | nil => simp [hexRun] at h
    | cons c t =>
      simp only [hexRun] at h
      by_cases hc : isLHex c = true
      · rw [if_pos hc] at h
        cases hrec : hexRun n t with
        | none => rw [hrec] at h; simp at h
        | some p =>
          rw [hrec] at h
          obtain ⟨a2, r2⟩ := p
          simp at h
          obtain ⟨ha, hr⟩ := h
          obtain ⟨h1, h2, h3⟩ := ih hrec
          subst ha
          subst hr
          refine ⟨by simp [h1], by simp [h2], ?_⟩
          intro x hx
          rcases List.mem_cons.mp hx with rfl | hx2
          · exact hc
          · exact h3 x hx2
      · rw [if_neg hc] at h
        simp at h

/-- The version-nibble class `[1-5]` of `UUID_REGEX`. -/
def VersionChar (c : Char) : Prop := c = '1' ∨ c = '2' ∨ c = '3' ∨ c = '4' ∨ c = '5'

/-- The variant-nibble class `[89ab]` of `UUID_REGEX`. -/
def VariantChar (c : Char) : Prop := c = '8' ∨ c = '9' ∨ c = 'a' ∨ c = 'b'

/-- The digit strings (hyphens removed) of the strings matched by
`UUID_REGEX`. -/
def UuidDigits (d : List Char) : Prop :=
  ∃ g1 g2 v g3 w g4 g5,
    d = g1 ++ g2 ++ v :: g3 ++ w :: g4 ++ g5 ∧
    g1.length = 8 ∧ g2.length = 4 ∧ g3.length = 3 ∧ g4.length = 3 ∧ g5.length = 12 ∧
    (∀ c ∈ d, isLHex c = true) ∧ VersionChar v ∧ VariantChar w

theorem ch_inv {c : Char} {l t : List Char} (h : ch? c l = some t) : l = c :: t := by
  cases l with
  | nil => simp [ch?] at h
  | cons a u =>
    simp only [ch?] at h
    split at h
    · next ha =>
      cases h
      rw [ha]
    · simp at h

theorem uuidGroup_decomp {g1 g2 g3 g4 g5 : List Char} {v w : Char}
    (h1 : g1.length = 8) (h2 : g2.length = 4) (h3 : g3.length = 3) (h4 : g4.length = 3)
    (h5 : g5.length = 12) :
    uuidGroup (g1 ++ g2 ++ v :: g3 ++ w :: g4 ++ g5) =
      g1 ++ '-' :: g2 ++ '-' :: v :: g3 ++ '-' :: w :: g4 ++ '-' :: g5 := by
  have e1 : (g1 ++ g2 ++ v :: g3 ++ w :: g4 ++ g5) =
      g1 ++ (g2 ++ ((v :: g3) ++ ((w :: g4) ++ g5))) := by
    simp [List.append_assoc]
  unfold uuidGroup
  rw [e1]
  have hd8 : List.drop 8 (g1 ++ (g2 ++ (v :: g3 ++ (w :: g4 ++ g5)))) =
      g2 ++ (v :: g3 ++ (w :: g4 ++ g5)) := List.drop_left' h1
  have h2v : (v :: g3).length = 4 := by simp [h3]
  have h2w : (w :: g4).length = 4 := by simp [h4]
  have hd12 : List.drop 12 (g1 ++ (g2 ++ (v :: g3 ++ (w :: g4 ++ g5)))) =
      v :: g3 ++ (w :: g4 ++ g5) := by
    rw [show (12 : Nat) = 8 + 4 from rfl, ← List.drop_drop, hd8, List.drop_left' h2]
  have hd16 : List.drop 16 (g1 ++ (g2 ++ (v :: g3 ++ (w :: g4 ++ g5)))) =
      w :: g4 ++ g5 := by
    rw [show (16 : Nat) = 12 + 4 from rfl, ← List.drop_drop, hd12, List.drop_left' h2v]
  have hd20 : List.drop 20 (g1 ++ (g2 ++ (v :: g3 ++ (w :: g4 ++ g5)))) = g5 := by
    rw [show (20 : Nat) = 16 + 4 from rfl, ← List.drop_drop, hd16, List.drop_left' h2w]
  rw [List.take_left' h1, hd8, hd12, hd16, hd20]
  rw [List.take_left' h2, List.take_left' h2v, List.take_left' h2w]

theorem hexRun_build' {n : Nat} {a : List Char} (hlen : a.length = n)
    (hall : ∀ c ∈ a, isLHex c = true) (r : List Char) :
    hexRun n (a ++ r) = some (a, r) := by
  rw [← hlen]
  exact hexRun_build r hall

theorem versionChar_lhex {v : Char} (h : VersionChar v) : isLHex v = true := by
  rcases h with rfl | rfl | rfl | rfl | rfl <;> rfl

theorem variantChar_lhex {w : Char} (h : VariantChar w) : isLHex w = true := by
  rcases h with rfl | rfl | rfl | rfl <;> rfl

/-- `UUID_REGEX` matches the canonical grouping of a digit string in
`UuidDigits`, whatever follows it. -/
theorem uuidMatch_build {d r : List Char} (hd : UuidDigits d) :
    uuidMatch? (uuidGroup d ++ r) = some d := by
  obtain ⟨g1, g2, v, g3, w, g4, g5, rfl, l1, l2, l3, l4, l5, hall, hver, hvar⟩ := hd
  rw [uuidGroup_decomp l1 l2 l3 l4 l5]
  have hg1 : ∀ c ∈ g1, isLHex c = true := fun c hc => hall c (by simp [hc])
  have hg2 : ∀ c ∈ g2, isLHex c = true := fun c hc => hall c (by simp [hc])
  have hg3 : ∀ c ∈ g3, isLHex c = true := fun c hc => hall c (by simp [hc])
  have hg4 : ∀ c ∈ g4, isLHex c = true := fun c hc => hall c (by simp [hc])
  have hg5 : ∀ c ∈ g5, isLHex c = true := fun c hc => hall c (by simp [hc])
  have hver2 : v = '1' ∨ v = '2' ∨ v = '3' ∨ v = '4' ∨ v = '5' := hver
  have hvar2 : w = '8' ∨ w = '9' ∨ w = 'a' ∨ w = 'b' := hvar
  unfold uuidMatch?
  simp only [List.append_assoc, List.cons_append]
  simp only [hexRun_build' l1 hg1, ch_cons, hexRun_build' l2 hg2, hexRun_build' l3 hg3,
    hexRun_build' l4 hg4, hexRun_build' l5 hg5, hver2, hvar2, if_true]

/-- Inversion of a `UUID_REGEX` match: the input is the canonical grouping of
the returned digits followed by arbitrary trailing content. -/
theorem uuidMatch_inv {s d : List Char} (h : uuidMatch? s = some d) :
    ∃ rest, s = uuidGroup d ++ rest ∧ UuidDigits d := by
  unfold uuidMatch? at h
  cases e1 : hexRun 8 s with
  | none => rw [e1] at h; simp at h
  | some p1 =>
  obtain ⟨g1, r1⟩ := p1
  rw [e1] at h
  simp only at h
  cases e2 : ch? '-' r1 with
  | none => rw [e2] at h; simp at h
  | some r2 =>
  rw [e2] at h
  simp only at h
  cases e3 : hexRun 4 r2 with
  | none => rw [e3] at h; simp at h
  | some p3 =>
  obtain ⟨g2, r3⟩ := p3
  rw [e3] at h
  simp only at h
  cases e4 : ch? '-' r3 with
  | none => rw [e4] at h; simp at h
  | some r4 =>
  rw [e4] at h
  simp only at h
  cases e5 : r4 with
  | nil => rw [e5] at h; simp at h
  | cons v r5 =>
  rw [e5] at h
  simp only at h
  by_cases hver : v = '1' ∨ v = '2' ∨ v = '3' ∨ v = '4' ∨ v = '5'
  case neg => rw [if_neg hver] at h; simp at h
  rw [if_pos hver] at h
  cases e6 : hexRun 3 r5 with
  | none => rw [e6] at h; simp at h
  | some p6 =>
  obtain ⟨g3, r6⟩ := p6
  rw [e6] at h
  simp only at h
  cases e7 : ch? '-' r6 with
  | none => rw [e7] at h; simp at h
  | some r7 =>
  rw [e7] at h
  simp only at h
  cases e8 : r7 with
  | nil => rw [e8] at h; simp at h
  | cons w r8 =>
  rw [e8] at h
  simp only at h
  by_cases hvar : w = '8' ∨ w = '9' ∨ w = 'a' ∨ w = 'b'
  case neg => rw [if_neg hvar] at h; simp at h
  rw [if_pos hvar] at h
  cases e9 : hexRun 3 r8 with
  | none => rw [e9] at h; simp at h
  | some p9 =>
  obtain ⟨g4, r9⟩ := p9
  rw [e9] at h
  simp only at h
  cases e10 : ch? '-' r9 with
  | none => rw [e10] at h; simp at h
  | some r10 =>
  rw [e10] at h
  simp only at h
  cases e11 : hexRun 12 r10 with
  | none => rw [e11] at h; simp at h
  | some p11 =>
  obtain ⟨g5, r11⟩ := p11
  rw [e11] at h
  simp only at h
  obtain ⟨hs1, hl1, ha1⟩ := hexRun_inv e1
  obtain ⟨hs3, hl3, ha3⟩ := hexRun_inv e3
  obtain ⟨hs6, hl6, ha6⟩ := hexRun_inv e6
  obtain ⟨hs9, hl9, ha9⟩ := hexRun_inv e9
  obtain ⟨hs11, hl11, ha11⟩ := hexRun_inv e11
  have hr1 := ch_inv e2
  have hr3 := ch_inv e4
  have hr6 := ch_inv e7
  have hr9 := ch_inv e10
  simp only [Option.some.injEq] at h
  subst h
  have hall : ∀ c ∈ g1 ++ g2 ++ v :: g3 ++ w :: g4 ++ g5, isLHex c = true := by
    intro c hc
    simp [List.mem_append, List.mem_cons] at hc
    rcases hc with hx | hx | rfl | hx | rfl | hx | hx
    · exact ha1 c hx
    · exact ha3 c hx
    · exact versionChar_lhex hver
    · exact ha6 c hx
    · exact variantChar_lhex hvar
    · exact ha9 c hx
    · exact ha11 c hx
  refine ⟨r11, ?_, g1, g2, v, g3, w, g4, g5, rfl, hl1, hl3, hl6, hl9, hl11, hall, hver, hvar⟩
  rw [uuidGroup_decomp hl1 hl3 hl6 hl9 hl11]
  rw [hs1, hr1, hs3, hr3, e5, hs6, hr6, e8, hs9, hr9, hs11]
  simp

theorem uuidDigits_length {d : List Char} (hd : UuidDigits d) :
    d.length = 32 ∧ (∀ c ∈ d, isLHex c = true) ∧ d ≠ [] := by
  obtain ⟨g1, g2, v, g3, w, g4, g5, rfl, l1, l2, l3, l4, l5, hall, hver, hvar⟩ := hd
  refine ⟨by simp [l1, l2, l3, l4, l5], hall, ?_⟩
  simp

theorem getLast?_cons_ne {a : Char} {l : List Char} (h : l ≠ []) :
    (a :: l).getLast? = l.getLast? := by
  rw [show a :: l = [a] ++ l from rfl, List.getLast?_append_of_ne_nil _ h]

/-- Character-level facts about the canonical grouping: every character is a
lowercase hex digit or a hyphen, and the ends are hex digits. -/
theorem uuidGroup_chars {d : List Char} (hd : UuidDigits d) :
    (∀ c ∈ uuidGroup d, isLHex c = true ∨ c = '-') ∧
      (∃ c0, (uuidGroup d).head? = some c0 ∧ isLHex c0 = true) ∧
      (∃ c1, (uuidGroup d).getLast? = some c1 ∧ isLHex c1 = true) ∧
      (uuidGroup d).filter (fun c => !(c = '-')) = d := by
  obtain ⟨g1, g2, v, g3, w, g4, g5, rfl, l1, l2, l3, l4, l5, hall, hver, hvar⟩ := hd
  rw [uuidGroup_decomp l1 l2 l3 l4 l5]
  have hg1 : ∀ c ∈ g1, isLHex c = true := fun c hc => hall c (by simp [hc])
  have hg2 : ∀ c ∈ g2, isLHex c = true := fun c hc => hall c (by simp [hc])
  have hg3 : ∀ c ∈ g3, isLHex c = true := fun c hc => hall c (by simp [hc])
  have hg4 : ∀ c ∈ g4, isLHex c = true := fun c hc => hall c (by simp [hc])
  have hg5 : ∀ c ∈ g5, isLHex c = true := fun c hc => hall c (by simp [hc])
  refine ⟨?_, ?_, ?_, ?_⟩
  · intro c hc
    simp [List.mem_append, List.mem_cons] at hc
    rcases hc with hx | rfl | hx | rfl | rfl | hx | rfl | rfl | hx | rfl | hx
    · exact Or.inl (hg1 c hx)
    · exact Or.inr rfl
    · exact Or.inl (hg2 c hx)
    · exact Or.inr rfl
    · exact Or.inl (versionChar_lhex hver)
    · exact Or.inl (hg3 c hx)
    · exact Or.inr rfl
    · exact Or.inl (variantChar_lhex hvar)
    · exact Or.inl (hg4 c hx)
    · exact Or.inr rfl
    · exact Or.inl (hg5 c hx)
  · obtain ⟨a, t, he⟩ : ∃ a t, g1 = a :: t := by
      cases g1 with
      | nil => simp at l1
      | cons a t => exact ⟨a, t, rfl⟩
    refine ⟨a, ?_, hg1 a (by simp [he])⟩
    rw [he]
    simp
  · obtain ⟨g5i, b, hco⟩ : ∃ L b, g5 = L ++ [b] := by
      rcases List.eq_nil_or_concat g5 with hnil | hcat
      · rw [hnil] at l5
        simp at l5
      · obtain ⟨L, b, hLb⟩ := hcat
        exact ⟨L, b, by simpa [List.concat_eq_append] using hLb⟩
    have hb : b ∈ g5 := by
      rw [hco]
      simp
    refine ⟨b, ?_, hg5 _ hb⟩
    rw [hco]
    have e : (g1 ++ '-' :: g2 ++ '-' :: v :: g3 ++ '-' :: w :: g4 ++ '-' :: (g5i ++ [b]))
        = (g1 ++ '-' :: g2 ++ '-' :: v :: g3 ++ '-' :: w :: g4 ++ '-' :: g5i) ++ [b] := by
      simp
    rw [e, List.getLast?_concat]
  · have hfg : ∀ (g : List Char), (∀ c ∈ g, isLHex c = true) →
        g.filter (fun c => !(c = '-')) = g := by
      intro g hg
      apply List.filter_eq_self.mpr
      intro c hc
      simp [(isLHex_ne_lemmas (hg c hc)).2.2.2.1]
    simp only [List.filter_append, List.filter_cons]
    norm_num
    rw [hfg g1 hg1, hfg g2 hg2, hfg g3 hg3, hfg g4 hg4, hfg g5 hg5]
    have hv3 : ¬(v = '-') := (isLHex_ne_lemmas (versionChar_lhex hver)).2.2.2.1
    have hw3 : ¬(w = '-') := (isLHex_ne_lemmas (variantChar_lhex hvar)).2.2.2.1
    simp [hv3, hw3]

theorem pyStripBoth_self {cs l : List Char} {c0 c1 : Char}
    (hh : l.head? = some c0) (hc0 : cs.contains c0 = false)
    (hl : l.getLast? = some c1) (hc1 : cs.contains c1 = false) :
    pyStripBoth cs l = l := by
  unfold pyStripBoth
  rw [dropWhile_head_stop hh (by simpa using hc0)]
  rw [dropWhile_head_stop (by rw [List.head?_reverse]; exact hl) (by simpa using hc1)]
  exact List.reverse_reverse l

set_option maxRecDepth 8192 in
/-- `uuid.UUID` on the canonical grouping of a digit string yields its hex
value. -/
theorem uuidCtor_canon {d : List Char} (hd : UuidDigits d) :
    uuidCtor (uuidGroup d) = some (hexVal d) := by
  obtain ⟨hclass, ⟨c0, hh0, hx0⟩, ⟨c1, hh1, hx1⟩, hfilter⟩ := uuidGroup_chars hd
  obtain ⟨hd32, hdall, hdne⟩ := uuidDigits_length hd
  have hnu : ∀ c ∈ uuidGroup d, c ≠ 'u' := by
    intro c hc
    rcases hclass c hc with hx | rfl
    · exact (isLHex_ne_lemmas hx).1
    · decide
  have hrep1 : pyReplaceDel 'u' ['r', 'n', ':'] (uuidGroup d) = uuidGroup d := by
    have := pyReplaceDel_append (q := ['r', 'n', ':']) (r := []) hnu
    simpa [pyReplaceDel, pyReplaceDelF] using this
  have hrep2 : pyReplaceDel 'u' ['u', 'i', 'd', ':'] (uuidGroup d) = uuidGroup d := by
    have := pyReplaceDel_append (q := ['u', 'i', 'd', ':']) (r := []) hnu
    simpa [pyReplaceDel, pyReplaceDelF] using this
  have hcont0 : List.contains ['{', '}'] c0 = false := by
    simp [(isLHex_ne_lemmas hx0).2.1, (isLHex_ne_lemmas hx0).2.2.1]
  have hcont1 : List.contains ['{', '}'] c1 = false := by
    simp [(isLHex_ne_lemmas hx1).2.1, (isLHex_ne_lemmas hx1).2.2.1]
  have hstrip : pyStripBoth ['{', '}'] (uuidGroup d) = uuidGroup d :=
    pyStripBoth_self hh0 hcont0 hh1 hcont1
  have hrange : (hexVal d : Int) < 2 ^ 128 := by
    have hv := hexVal_lt d
    rw [hd32] at hv
    have : (16 : Nat) ^ 32 = 2 ^ 128 := by norm_num
    rw [this] at hv
    exact_mod_cast hv
  have hcond : (0 : Int) ≤ (hexVal d : Int) ∧ (hexVal d : Int) < 2 ^ 128 :=
    ⟨by positivity, hrange⟩
  simp only [uuidCtor, hrep1, hrep2, hstrip, hfilter, if_pos hd32,
    pyIntHex_all hdne hdall, if_pos hcond, Int.toNat_natCast]

set_option maxRecDepth 8192 in
/-- `uuid.UUID` on the canonical grouping followed by trailing content can only
succeed with the hex value of the digits (and, in fact, only with empty
post-filter residue). -/
theorem uuidCtor_inv {d rest : List Char} {u : Nat} (hd : UuidDigits d)
    (h : uuidCtor (uuidGroup d ++ rest) = some u) : u = hexVal d := by
  obtain ⟨hclass, ⟨c0, hh0, hx0⟩, ⟨c1, hh1, hx1⟩, hfilter⟩ := uuidGroup_chars hd
  obtain ⟨hd32, hdall, hdne⟩ := uuidDigits_length hd
  have hnu : ∀ c ∈ uuidGroup d, c ≠ 'u' := by
    intro c hc
    rcases hclass c hc with hx | rfl
    · exact (isLHex_ne_lemmas hx).1
    · decide
  have hcont0 : List.contains ['{', '}'] c0 = false := by
    simp [(isLHex_ne_lemmas hx0).2.1, (isLHex_ne_lemmas hx0).2.2.1]
  have hcont1 : List.contains ['{', '}'] c1 = false := by
    simp [(isLHex_ne_lemmas hx1).2.1, (isLHex_ne_lemmas hx1).2.2.1]
  have hrep1 := pyReplaceDel_append (q := ['r', 'n', ':']) (r := rest) hnu
  have hrep2 := pyReplaceDel_append
    (q := ['u', 'i', 'd', ':'])
    (r := pyReplaceDel 'u' ['r', 'n', ':'] rest) hnu
  obtain ⟨r3, hstrip⟩ := pyStripBoth_append
    (r := pyReplaceDel 'u' ['u', 'i', 'd', ':'] (pyReplaceDel 'u' ['r', 'n', ':'] rest))
    hh0 hcont0 hh1 hcont1
  simp only [uuidCtor, hrep1, hrep2, hstrip, List.filter_append, hfilter] at h
  by_cases hlen2 : (d ++ r3.filter (fun c => !(c = '-'))).length = 32
  · have hf3 : r3.filter (fun c => !(c = '-')) = [] := by
      rw [List.length_append, hd32] at hlen2
      exact List.eq_nil_of_length_eq_zero (by omega)
    rw [if_pos hlen2] at h
    rw [hf3, List.append_nil] at h
    have hrange : (hexVal d : Int) < 2 ^ 128 := by
      have hv := hexVal_lt d
      rw [hd32] at hv
      have : (16 : Nat) ^ 32 = 2 ^ 128 := by norm_num
      rw [this] at hv
      exact_mod_cast hv
    have hcond : (0 : Int) ≤ (hexVal d : Int) ∧ (hexVal d : Int) < 2 ^ 128 :=
      ⟨by positivity, hrange⟩
    simp only [pyIntHex_all hdne hdall, if_pos hcond, Int.toNat_natCast,
      Option.some.injEq] at h
    omega
  · rw [if_neg hlen2] at h
    simp at h

/-- `UUIDFormat` round-trip: serializing a value produced by `validate` and
re-validating recovers the same value. -/
theorem uuidValidate_serialize {s : List Char} {u : Nat} (h : uuidValidate s = .ok u) :
    uuidSerialize (some u) = some (uuidStr u) ∧ uuidValidate (uuidStr u) = .ok u := by
  unfold uuidValidate at h
  cases hm : uuidMatch? s with
  | none => rw [hm] at h; simp at h
  | some d =>
    rw [hm] at h
    simp only at h
    cases hc : uuidCtor s with
    | none => rw [hc] at h; simp at h
    | some u2 =>
      rw [hc] at h
      simp only [Except.ok.injEq] at h
      subst h
      obtain ⟨rest, hs, hd⟩ := uuidMatch_inv hm
      rw [hs] at hc
      have hu : u2 = hexVal d := uuidCtor_inv hd hc
      obtain ⟨hd32, hdall, _⟩ := uuidDigits_length hd
      have hren : hexRender 32 (hexVal d) = d := by
        rw [← hd32]
        exact hexRender_hexVal hdall
      have hstr : uuidStr (hexVal d) = uuidGroup d := by
        unfold uuidStr
        rw [hren]
      subst hu
      refine ⟨rfl, ?_⟩
      unfold uuidValidate
      rw [hstr]
      have hmatch : uuidMatch? (uuidGroup d) = some d := by
        have := uuidMatch_build (r := []) hd
        simpa using this
      rw [hmatch]
      simp only
      rw [uuidCtor_canon hd]

/-! ### URLFormat

`URL_REGEX.match(value)` is used only for its truthiness, so the embedding of
the regular expression is an acceptance test: `urlAccept s = true` iff some
decomposition of a prefix of `s` matches
`\b(http[s]?://)?([^:\s]+)(\.\w+)*\.(TOP_DOMAINS)(/[\w\-.]+[^#?\s]+)*/?\b`
anchored at position 0 (Python's backtracking engine tries every
decomposition before failing, so match truthiness is exactly existence of a
decomposition).  Character classes are embedded on their ASCII fragment. -/

/-- `\w`: word character (ASCII fragment). -/
def isWordC (c : Char) : Bool := c.isAlphanum || c = '_'

/-- `\s`: whitespace (ASCII fragment). -/
def isSpaceC (c : Char) : Bool :=
  c = ' ' || c = '\t' || c = '\n' || c = '\r' || c = '\x0b' || c = '\x0c'

/-- `[^:\s]`: the host-token class. -/
def isHostC (c : Char) : Bool := !(c = ':') && !(isSpaceC c)

/-- `[\w\-.]`: first path-segment class. -/
def isPath1C (c : Char) : Bool := isWordC c || c = '-' || c = '.'

/-- `[^#?\s]`: second path-segment class. -/
def isPath2C (c : Char) : Bool := !(c = '#') && !(c = '?') && !(isSpaceC c)

/-- `TOP_DOMAINS`, the 42 alternatives in source order (`us` appears twice). -/
def TLDS : List (List Char) :=
  [['c', 'o', 'm'],
   ['o', 'r', 'g'],
   ['n', 'e', 't'],
   ['u', 's'],
   ['c', 'o'],
   ['i', 'n', 't'],
   ['m', 'i', 'l'],
   ['e', 'd', 'u'],
   ['g', 'o', 'v'],
   ['b', 'i', 'z'],
   ['i', 'n', 'f', 'o'],
   ['j', 'o', 'b', 's'],
   ['m', 'o', 'b', 'i'],
   ['n', 'a', 'm', 'e'],
   ['l', 'y'],
   ['t', 'e', 'l'],
   ['k', 'i', 't', 'c', 'h', 'e', 'n'],
   ['e', 'm', 'a', 'i', 'l'],
   ['t', 'e', 'c', 'h'],
   ['e', 's', 't', 'a', 't', 'e'],
   ['x', 'y', 'z'],
   ['c', 'o', 'd', 'e', 's'],
   ['b', 'a', 'r', 'g', 'a', 'i', 'n', 's'],
   ['b', 'i', 'd'],
   ['e', 'x', 'p', 'e', 'r', 't'],
   ['c', 'a'],
   ['c', 'n'],
   ['f', 'r'],
   ['c', 'h'],
   ['a', 'u'],
   ['i', 'n'],
   ['d', 'e'],
   ['j', 'p'],
   ['n', 'l'],
   ['u', 'k'],
   ['m', 'x'],
   ['n', 'o'],
   ['r', 'u'],
   ['b', 'r'],
   ['s', 'e'],
   ['e', 's'],
   ['u', 's']]

/-- Remainders after consuming one or more characters of class `p`
(the possible matches of `p+` starting at the head). -/
def runRems (p : Char → Bool) : List Char → List (List Char)
  | [] => []
  | c :: t => if p c then t :: runRems p t else []

/-- Remainders after zero or more iterations of `f`, with fuel `n` (each
iteration of the groups used below consumes at least one character, so fuel
`s.length` is complete). -/
def starN : Nat → (List Char → List (List Char)) → List Char → List (List Char)
  | 0, _, s => [s]
  | n + 1, f, s => s :: (f s).bind (starN n f)

/-- One `(\.\w+)` group. -/
def dotw : List Char → List (List Char)
  | '.' :: t => runRems isWordC t
  | _ => []

/-- One `(/[\w\-.]+[^#?\s]+)` group. -/
def seg1 : List Char → List (List Char)
  | '/' :: t => (runRems isPath1C t).bind (runRems isPath2C)
  | _ => []

/-- Remainders after the optional scheme group `(http[s]?://)?`. -/
def schemeRems (s : List Char) : List (List Char) :=
  (if List.isPrefixOf ['h', 't', 't', 'p', 's', ':', '/', '/'] s then [s.drop 8] else []) ++
    (if List.isPrefixOf ['h', 't', 't', 'p', ':', '/', '/'] s then [s.drop 7] else []) ++ [s]

/-- Remainders after `\.(TOP_DOMAINS)`. -/
def tldRems : List Char → List (List Char)
  | '.' :: t =>
    TLDS.foldr (fun tl acc => if List.isPrefixOf tl t then t.drop tl.length :: acc else acc) []
  | _ => []

/-- Remainders after the optional trailing `/?`. -/
def slashOptRems : List Char → List (List Char)
  | '/' :: t => [t, '/' :: t]
  | r => [r]

/-- The character of `s` immediately before the suffix `r`. -/
def charBefore (s r : List Char) : Option Char :=
  (s.take (s.length - r.length)).getLast?

/-- The final `\b` of `URL_REGEX`, between the end of a (non-empty) match of
`s` with remainder `r` and the remainder. -/
def bOk (s r : List Char) : Bool :=
  match charBefore s r with
  | none => false
  | some c =>
    match r with
    | [] => isWordC c
    | c2 :: _ => !(isWordC c == isWordC c2)

/-- Truthiness of `URL_REGEX.match(s)`: the initial `\b` requires a word
character at position 0, then some decomposition of the remaining groups must
exist. -/
def urlAccept (s : List Char) : Bool :=
  match s with
  | [] => false
  | c0 :: _ =>
    isWordC c0 &&
      (schemeRems s).any (fun s1 =>
        (runRems isHostC s1).any (fun s2 =>
          (starN s2.length dotw s2).any (fun s3 =>
            (tldRems s3).any (fun s4 =>
              (starN s4.length seg1 s4).any (fun s5 =>
                (slashOptRems s5).any (fun r => bOk s r))))))

/-- `urllib.parse.ParseResult`: the 6-tuple
(scheme, netloc, path, params, query, fragment). -/
structure UrlParts where
  scheme : List Char
  netloc : List Char
  path : List Char
  params : List Char
  query : List Char
  fragment : List Char
deriving DecidableEq

/-- `urllib.parse.scheme_chars`. -/
def schemeChar (c : Char) : Bool := c.isAlpha || c.isDigit || c = '+' || c = '-' || c = '.'

/-- Split at the first occurrence of `c` (Python `str.split(c, 1)` after an
`in` test). -/
def splitFirst (c : Char) (l : List Char) : Option (List Char × List Char) :=
  match l.findIdx? (fun x => x = c) with
  | none => none
  | some i => some (l.take i, l.drop (i + 1))

/-- `urllib.parse.urlsplit` (CPython 3.11, str input, default scheme `""`,
`allow_fragments=True`): lstrip of C0-control/space characters, removal of
tab/CR/LF, optional scheme split at the first `:` (lowercased; first character
must be an ASCII letter and the candidate all `scheme_chars`), netloc after
`//` up to the first of `/?#`, then fragment and query splits.  A netloc
containing `[` or `]` makes CPython validate a bracketed (IP-literal) host and
raise `ValueError` for anything that is not one; the embedding maps every
bracketed netloc to `.crash` (no theorem below depends on the accepting
IP-literal branch).  `_checknetloc` is a no-op on ASCII input. -/
def urlsplitM (url0 : List Char) :
    Except VErr (List Char × List Char × List Char × List Char × List Char) :=
  let url1 := ((url0.dropWhile (fun c => c.toNat ≤ 32)).filter
    (fun c => !(c = '\t' || c = '\r' || c = '\n')))
  let p2 :=
    match url1.findIdx? (fun x => x = ':') with
    | some i =>
      if 0 < i ∧ (url1.headD ' ').isAlpha ∧ (url1.take i).all schemeChar then
        ((url1.take i).map Char.toLower, url1.drop (i + 1))
      else ([], url1)
    | none => ([], url1)
  let scheme := p2.1
  let url2 := p2.2
  let p3 :=
    if List.isPrefixOf ['/', '/'] url2 then
      let nl := (url2.drop 2).takeWhile (fun c => !(c = '/' || c = '?' || c = '#'))
      (nl, (url2.drop 2).drop nl.length)
    else ([], url2)
  let netloc := p3.1
  let url3 := p3.2
  if netloc.any (fun c => c = '[' || c = ']') then .error .crash
  else
    let p4 :=
      match splitFirst '#' url3 with
      | some ab => ab
      | none => (url3, [])
    let p5 :=
      match splitFirst '?' p4.1 with
      | some ab => ab
      | none => (p4.1, [])
    .ok (scheme, netloc, p5.1, p5.2, p4.2)

/-- `urllib.parse.uses_params`. -/
def usesParams : List (List Char) :=
  [[],
   ['f', 't', 'p'],
   ['h', 'd', 'l'],
   ['p', 'r', 'o', 's', 'p', 'e', 'r', 'o'],
   ['h', 't', 't', 'p'],
   ['i', 'm', 'a', 'p'],
   ['h', 't', 't', 'p', 's'],
   ['s', 'h', 't', 't', 'p'],
   ['r', 't', 's', 'p'],
   ['r', 't', 's', 'p', 's'],
   ['r', 't', 's', 'p', 'u'],
   ['s', 'i', 'p'],
   ['s', 'i', 'p', 's'],
   ['m', 'm', 's'],
   ['s', 'f', 't', 'p'],
   ['t', 'e', 'l']]

/-- `urllib.parse.uses_netloc`. -/
def usesNetloc : List (List Char) :=
  [[],
   ['f', 't', 'p'],
   ['h', 't', 't', 'p'],
   ['g', 'o', 'p', 'h', 'e', 'r'],
   ['n', 'n', 't', 'p'],
   ['t', 'e', 'l', 'n', 'e', 't'],
   ['i', 'm', 'a', 'p'],
   ['w', 'a', 'i', 's'],
   ['f', 'i', 'l', 'e'],
   ['m', 'm', 's'],
   ['h', 't', 't', 'p', 's'],
   ['s', 'h', 't', 't', 'p'],
   ['s', 'n', 'e', 'w', 's'],
   ['p', 'r', 'o', 's', 'p', 'e', 'r', 'o'],
   ['r', 't', 's', 'p'],
   ['r', 't', 's', 'p', 's'],
   ['r', 't', 's', 'p', 'u'],
   ['r', 's', 'y', 'n', 'c'],
   ['s', 'v', 'n'],
   ['s', 'v', 'n', '+', 's', 's', 'h'],
   ['s', 'f', 't', 'p'],
   ['n', 'f', 's'],
   ['g', 'i', 't'],
   ['g', 'i', 't', '+', 's', 's', 'h'],
   ['w', 's'],
   ['w', 's', 's']]

/-- `urllib.parse._splitparams`. -/
def splitParams (url : List Char) : List Char × List Char :=
  if url.contains '/' then
    let j := url.length - 1 - url.reverse.findIdx (fun x => x = '/')
    match (url.drop j).findIdx? (fun x => x = ';') with
    | none => (url, [])
    | some k => (url.take (j + k), url.drop (j + k + 1))
  else
    match url.findIdx? (fun x => x = ';') with
    | none => (url.dropLast, url)
    | some k => (url.take k, url.drop (k + 1))

/-- `urllib.parse.urlparse` (CPython 3.11). -/
def urlparseM (url : List Char) : Except VErr UrlParts :=
  match urlsplitM url with
  | .error e => .error e
  | .ok (scheme, netloc, url2, query, fragment) =>
    let pp :=
      if usesParams.contains scheme && url2.contains ';' then splitParams url2
      else (url2, [])
    .ok ⟨scheme, netloc, pp.1, pp.2, query, fragment⟩

/-- `urllib.parse.urlunsplit` (CPython 3.11). -/
def urlunsplitM (scheme netloc url query fragment : List Char) : List Char :=
  let u1 :=
    if netloc ≠ [] ∨ (scheme ≠ [] ∧ usesNetloc.contains scheme ∧ url.take 2 ≠ ['/', '/']) then
      let u0 := if url ≠ [] ∧ url.take 1 ≠ ['/'] then '/' :: url else url
      '/' :: '/' :: (netloc ++ u0)
    else url
  let u2 := if scheme ≠ [] then scheme ++ ':' :: u1 else u1
  let u3 := if query ≠ [] then u2 ++ '?' :: query else u2
  if fragment ≠ [] then u3 ++ '#' :: fragment else u3

/-- `ParseResult.geturl()`, i.e. `urllib.parse.urlunparse`. -/
def urlunparseM (p : UrlParts) : List Char :=
  urlunsplitM p.scheme p.netloc
    (if p.params ≠ [] then p.path ++ ';' :: p.params else p.path) p.query p.fragment

/-- `URLFormat.validate`: `URL_REGEX.match(value)` (format error when there is
no match at the start), prepend `http://` unless the string starts with
`http`, then `urllib.parse.urlparse` — whose `ValueError` is not caught
(`.crash`). -/
def urlValidate (s : List Char) : Except VErr UrlParts :=
  if urlAccept s then
    urlparseM
      (if List.isPrefixOf ['h', 't', 't', 'p'] s then s
       else ['h', 't', 't', 'p', ':', '/', '/'] ++ s)
  else .error .format

/-- `URLFormat.serialize`: `None` in, `None` out; otherwise `obj.geturl()`. -/
def urlSerialize (o : Option UrlParts) : Option (List Char) :=
  match o with
  | none => none
  | some p => some (urlunparseM p)

/-! ### EmailFormat

`EMAIL_REGEX.match(value)` is likewise used only for its truthiness.  The
pattern `(^[a-zA-Z0-9_.+-]+@[a-zA-Z0-9-]+\.[a-zA-Z0-9-.]+$)` is deterministic:
`@` is not in the local class, `.` is not in the first domain class, and `\n`
is not in the second domain class, so each `+` run is forced to be maximal and
`$` (end of string, or just before a final newline) fixes the split. -/

/-- `[a-zA-Z0-9_.+-]`. -/
def isEmailLocalC (c : Char) : Bool :=
  c.isAlphanum || c = '_' || c = '.' || c = '+' || c = '-'

/-- `[a-zA-Z0-9-]`. -/
def isEmailDom1C (c : Char) : Bool := c.isAlphanum || c = '-'

/-- `[a-zA-Z0-9-.]`. -/
def isEmailDom2C (c : Char) : Bool := c.isAlphanum || c = '-' || c = '.'

/-- Truthiness of `EMAIL_REGEX.match(s)`. -/
def emailAccept (s : List Char) : Bool :=
  let l := s.takeWhile isEmailLocalC
  if l = [] then false
  else
    match s.drop l.length with
    | '@' :: r2 =>
      let d1 := r2.takeWhile isEmailDom1C
      if d1 = [] then false
      else
        match r2.drop d1.length with
        | '.' :: r3 =>
          let d2 := if r3.getLast? = some '\n' then r3.dropLast else r3
          !(d2 = []) && d2.all isEmailDom2C
        | _ => false
    | _ => false

/-- `EmailFormat.validate`: format error unless the regex matches; the
validated string itself is returned as the native value. -/
def emailValidate (s : List Char) : Except VErr (List Char) :=
  if emailAccept s then .ok s else .error .format

/-- `EmailFormat.serialize`: `return obj` (so `None` in, `None` out). -/
def emailSerialize (o : Option (List Char)) : Option (List Char) :=
  match o with
  | none => none
  | some s => some s

/-! ### `is_native_type`

A Python value, as far as the six `is_native_type` implementations can
distinguish one: `datetime.datetime` is a subclass of `datetime.date`, so
`isinstance(value, datetime.date)` is true for both. -/

inductive PyVal where
  | str (s : List Char)
  | date (d : PyDate)
  | datetime (dt : PyDateTime)
  | time (t : PyTime)
  | uuid (n : Nat)
  | parseResult (p : UrlParts)

/-- `DateFormat.is_native_type`: `isinstance(value, datetime.date)` —
`datetime.datetime` instances are also `datetime.date` instances. -/
def dateIsNativeType : PyVal → Bool
  | .date _ => true
  | .datetime _ => true
  | _ => false

/-- `TimeFormat.is_native_type`: `isinstance(value, datetime.time)`. -/
def timeIsNativeType : PyVal → Bool
  | .time _ => true
  | _ => false

/-- `DateTimeFormat.is_native_type`: `isinstance(value, datetime.datetime)`. -/
def datetimeIsNativeType : PyVal → Bool
  | .datetime _ => true
  | _ => false

/-- `UUIDFormat.is_native_type`: `isinstance(value, uuid.UUID)`. -/
def uuidIsNativeType : PyVal → Bool
  | .uuid _ => true
  | _ => false

/-- `URLFormat.is_native_type`: `isinstance(value, urllib.parse.ParseResult)`. -/
def urlIsNativeType : PyVal → Bool
  | .parseResult _ => true
  | _ => false

/-- `EmailFormat.is_native_type`: the source (line 217) tests
`isinstance(value, urllib.parse.ParseResult)`, not `str`. -/
def emailIsNativeType : PyVal → Bool
  | .parseResult _ => true
  | _ => false

/-! ### Supporting lemmas for the claims -/

theorem digitVal_lt (c : Char) : digitVal c < 10 := by
  unfold digitVal
  split <;> omega

theorem digitChar_ne_plus_all (n : Nat) : digitChar n ≠ '+' := by
  unfold digitChar
  split <;> decide

theorem natOfDigits_append_singleton (l : List Char) (c : Char) :
    natOfDigits (l ++ [c]) = 10 * natOfDigits l + digitVal c := by
  simp [natOfDigits, List.foldl_append]

theorem natOfDigits_lt (l : List Char) : natOfDigits l < 10 ^ l.length := by
  induction l using List.reverseRecOn with
  | nil => simp [natOfDigits]
  | append_singleton t c ih =>
    rw [natOfDigits_append_singleton, List.length_append, List.length_singleton,
      pow_succ]
    have := digitVal_lt c
    omega

theorem natOfDigits_ljust6_lt {l : List Char} (h : l.length ≤ 6) :
    natOfDigits (ljust6 l) < 1000000 := by
  have hlen : (ljust6 l).length = 6 := by
    simp [ljust6]
    omega
  have hv := natOfDigits_lt (ljust6 l)
  rw [hlen] at hv
  simpa using hv

theorem takeWhile_all {p : Char → Bool} {l : List Char} (h : ∀ c ∈ l, p c = true) :
    l.takeWhile p = l := by
  induction l with
  | nil => rfl
  | cons a t ih =>
    rw [List.takeWhile_cons, if_pos (h a (List.mem_cons_self a t))]
    rw [ih (fun c hc => h c (List.mem_cons_of_mem a hc))]

deriving instance DecidableEq for Except

instance (c : Char) : Decidable (VersionChar c) := by
  unfold VersionChar
  infer_instance

instance (c : Char) : Decidable (VariantChar c) := by
  unfold VariantChar
  infer_instance

/-! ### The claims -/

/-- C2: the spec requires `C.serialize(None) == None` for every one of the six
converters, but `UUIDFormat.serialize` is `str(obj)` with no `None` check, so
it returns the four-character string `"None"`; the other five converters do
return `None`. -/
theorem C2_null_serialization :
    uuidSerialize none = some ['N', 'o', 'n', 'e'] ∧
    dateSerialize none = none ∧
    timeSerialize none = none ∧
    dtSerialize none = none ∧
    urlSerialize none = none ∧
    emailSerialize none = none :=
  ⟨rfl, rfl, rfl, rfl, rfl, rfl⟩

/-- C6: the spec requires `is_native_type` to be true exactly on the target
native type, and `EmailFormat`'s native value is the validated string; but
`EmailFormat.is_native_type` tests `isinstance(value, urllib.parse.ParseResult)`
(copied from `URLFormat`), so it is false on every string and agrees with
`URLFormat.is_native_type` on every value. -/
theorem C6_email_is_native_type :
    (∀ l, emailIsNativeType (PyVal.str l) = false) ∧
    (∀ p, emailIsNativeType (PyVal.parseResult p) = true) ∧
    (∀ v, emailIsNativeType v = urlIsNativeType v) := by
  refine ⟨fun l => rfl, fun p => rfl, fun v => ?_⟩
  cases v <;> rfl

set_option maxRecDepth 8192 in
/-- C3 counterexample: the canonical UUID layout with uppercase hex digits is
rejected with code `format` (`UUID_REGEX` has only `[0-9a-f]`), while the same
UUID in lowercase is accepted. -/
theorem C3_counterexample :
    uuidValidate ("550E8400-E29B-41D4-A716-446655440000").data = .error .format ∧
    uuidValidate ("550e8400-e29b-41d4-a716-446655440000").data =
      .ok 113059749145936325402354257176981405696 := by
  constructor <;> decide

/-- C3 (amended): `UUIDFormat.validate` accepts the canonical 8-4-4-4-12
layout with version nibble 1-5 and variant nibble 8, 9, a or b only in
lowercase, and returns the 128-bit value of the hex digits. -/
theorem C3_lowercase_canonical {d : List Char} (hd : UuidDigits d) :
    uuidValidate (uuidGroup d) = .ok (hexVal d) := by
  unfold uuidValidate
  have hm : uuidMatch? (uuidGroup d) = some d := by
    have := uuidMatch_build (r := []) hd
    simpa using this
  rw [hm]
  simp only
  rw [uuidCtor_canon hd]

set_option maxRecDepth 8192 in
/-- C3 witness: the amended theorem at the concrete digits of
`550e8400-e29b-41d4-a716-446655440000`. -/
theorem C3_lowercase_canonical_witness :
    uuidValidate (uuidGroup ("550e8400e29b41d4a716446655440000").data) =
      .ok (hexVal ("550e8400e29b41d4a716446655440000").data) :=
  C3_lowercase_canonical
    ⟨("550e8400").data, ("e29b").data, '4', ("1d4").data, 'a', ("716").data,
      ("446655440000").data, by decide, by decide, by decide, by decide,
      by decide, by decide, by decide, by decide⟩

set_option maxRecDepth 8192 in
/-- C4: `UUIDFormat.validate` never fails with code `invalid`, and fails with
code `format` exactly when `UUID_REGEX` does not match at the start; but a
third outcome exists: `UUID_REGEX` is not end-anchored, so on
`550e8400-e29b-41d4-a716-446655440000x` the regex matches and the uncaught
`uuid.UUID(value)` constructor raises a `ValueError` that escapes `validate`. -/
theorem C4_uuid_error_modes :
    (∀ s, uuidValidate s = .error .format ↔ uuidMatch? s = none) ∧
    (∀ s, uuidValidate s = .error .format ∨ uuidValidate s = .error .crash ∨
      ∃ u, uuidValidate s = .ok u) ∧
    uuidValidate ("550e8400-e29b-41d4-a716-446655440000x").data = .error .crash := by
  refine ⟨fun s => ?_, fun s => ?_, by decide⟩
  · unfold uuidValidate
    cases hm : uuidMatch? s with
    | none => simp
    | some d =>
      cases hc : uuidCtor s with
      | none => simp
      | some u => simp
  · unfold uuidValidate
    cases hm : uuidMatch? s with
    | none => simp
    | some d =>
      cases hc : uuidCtor s with
      | none => simp
      | some u => simp

/-- C8: `TimeFormat.validate` captures greedily the first up to six fractional
digits (digits beyond the sixth are discarded by truncation) and right-pads
the captured group with zeros to six digits before `int` conversion:
an all-digit fractional part `frac` yields microsecond
`int(ljust6(frac.take 6))`, so `.5` means 500000 and 13 fractional digits are
truncated to the first six.  The same padding is applied by
`DateTimeFormat.validate`. -/
theorem C8_fraction_padding :
    (∀ (hr mi se : Nat) (frac : List Char), hr < 24 → mi < 60 → se < 60 →
      frac ≠ [] → (∀ c ∈ frac, c.isDigit = true) →
      timeValidate (pad2 hr ++ ':' :: pad2 mi ++ ':' :: pad2 se ++ '.' :: frac) =
        .ok ⟨hr, mi, se, natOfDigits (ljust6 (frac.take 6))⟩) ∧
    timeValidate ("14:30:00.5").data = .ok ⟨14, 30, 0, 500000⟩ ∧
    timeValidate ("14:30:00.1234567890123").data = .ok ⟨14, 30, 0, 123456⟩ ∧
    dtValidate ("2021-06-01T12:00:00.5").data = .ok ⟨2021, 6, 1, 12, 0, 0, 500000, none⟩ ∧
    dtValidate ("2021-06-01T12:00:00.1234567").data =
      .ok ⟨2021, 6, 1, 12, 0, 0, 123456, none⟩ := by
  refine ⟨?_, by decide, by decide, by decide, by decide⟩
  intro hr mi se frac hhr hmi hse hne hdig
  have hfr : timeFrac? ('.' :: frac) = some (frac.take 6) := by
    simp only [timeFrac?]
    rw [takeWhile_all hdig]
    cases frac with
    | nil => exact absurd rfl hne
    | cons a t => simp
  have hmatch : timeMatch? (pad2 hr ++ ':' :: pad2 mi ++ ':' :: pad2 se ++ '.' :: frac)
      = some ⟨hr, mi, some se, some (frac.take 6)⟩ := by
    simp [timeMatch?, d12Lit_pad2 (show hr < 100 by omega),
      d2_pad2 (show mi < 100 by omega), ch_cons, d2_pad2 (show se < 100 by omega), hfr]
  unfold timeValidate
  rw [hmatch]
  simp only [Option.getD_some]
  have hμ : natOfDigits (ljust6 (frac.take 6)) < 1000000 := by
    refine natOfDigits_ljust6_lt ?_
    simp [List.length_take]
  have hok : timeOk hr mi se (natOfDigits (ljust6 (frac.take 6))) = true := by
    simp [timeOk]
    omega
  rw [if_pos hok]

/-- C8 witness: the fractional part `5` after `14:30:00` yields microsecond
500000. -/
theorem C8_fraction_padding_witness :
    timeValidate (pad2 14 ++ ':' :: pad2 30 ++ ':' :: pad2 0 ++ '.' :: ['5']) =
      .ok ⟨14, 30, 0, natOfDigits (ljust6 (['5'].take 6))⟩ :=
  C8_fraction_padding.1 14 30 0 ['5'] (by decide) (by decide) (by decide)
    (by decide) (by decide)

/-- C10 counterexample: `14:30:99` begins with the valid prefix `14:30`, but
`TimeFormat.validate` fails on it with code `invalid` (the greedy seconds
group captures `99`) instead of parsing the prefix; `14:30` itself is
accepted. -/
theorem C10_counterexample :
    timeValidate ("14:30:99").data = .error .invalid ∧
    timeValidate ("14:30").data = .ok ⟨14, 30, 0, 0⟩ := by
  constructor <;> decide

/-- C10 (amended): `TIME_REGEX` is not end-anchored, so trailing content that
does not extend the match is ignored: after a two-digit hour, `:` and a
two-digit minute, any remainder not of the form `:` followed by a digit is
dropped and the time parses to hour/minute with zero seconds and microseconds
(e.g. `14:30garbage`).  `DateFormat` and `DateTimeFormat` are end-anchored by
`$` and reject the analogous strings with code `format`.  (Trailing content
that does extend a group, such as `:99`, is consumed by the greedy match and
does affect the result.) -/
theorem C10_time_not_anchored :
    (∀ (hr mi : Nat) (rest : List Char), hr < 24 → mi < 60 →
      (∀ c t, rest = ':' :: c :: t → c.isDigit = false) →
      timeValidate (pad2 hr ++ ':' :: pad2 mi ++ rest) = .ok ⟨hr, mi, 0, 0⟩) ∧
    timeValidate ("14:30garbage").data = .ok ⟨14, 30, 0, 0⟩ ∧
    dateValidate ("2021-1-1x").data = .error .format ∧
    dtValidate ("2021-6-1T1:2x").data = .error .format := by
  refine ⟨?_, by decide, by decide, by decide⟩
  intro hr mi rest hhr hmi hrest
  have hh100 : hr < 100 := by omega
  have hm100 : mi < 100 := by omega
  have hmatch : timeMatch? (pad2 hr ++ ':' :: pad2 mi ++ rest)
      = some ⟨hr, mi, none, none⟩ := by
    cases hr2 : rest with
    | nil =>
      have hd2 : d2? (pad2 mi) = some (mi, []) := by simpa using d2_pad2 hm100 []
      simp [timeMatch?, d12Lit_pad2 hh100, hd2, ch?]
    | cons a t =>
      by_cases ha : a = ':'
      · subst ha
        cases t with
        | nil =>
          have hd2 : d2? (pad2 mi ++ [':']) = some (mi, [':']) := d2_pad2 hm100 [':']
          have hz2 : d2? ([] : List Char) = none := rfl
          have hz1 : d1? ([] : List Char) = none := rfl
          simp [timeMatch?, d12Lit_pad2 hh100, hd2, ch_cons, hz2, hz1]
        | cons b u =>
          have hb : b.isDigit = false := hrest b u hr2
          have hd2 : d2? (pad2 mi ++ ':' :: b :: u) = some (mi, ':' :: b :: u) :=
            d2_pad2 hm100 _
          have hi2 : d2? (b :: u) = none := by
            cases u with
            | nil => rfl
            | cons e w => simp [d2?, hb]
          have hi1 : d1? (b :: u) = none := by simp [d1?, hb]
          simp [timeMatch?, d12Lit_pad2 hh100, hd2, ch_cons, hi2, hi1]
      · have hd2 : d2? (pad2 mi ++ a :: t) = some (mi, a :: t) := d2_pad2 hm100 _
        have hch : ch? ':' (a :: t) = none := by simp [ch?, ha]
        simp [timeMatch?, d12Lit_pad2 hh100, hd2, hch]
  unfold timeValidate
  rw [hmatch]
  simp only [Option.getD_none]
  have hok : timeOk hr mi 0 0 = true := by
    simp [timeOk]
    omega
  rw [if_pos hok]

/-- C10 witness: the amended theorem at `14:30` followed by `garbage`. -/
theorem C10_time_not_anchored_witness :
    timeValidate (pad2 14 ++ ':' :: pad2 30 ++ ['g', 'a', 'r', 'b', 'a', 'g', 'e']) =
      .ok ⟨14, 30, 0, 0⟩ :=
  C10_time_not_anchored.1 14 30 ['g', 'a', 'r', 'b', 'a', 'g', 'e'] (by decide) (by decide)
    (by
      intro c t h
      injection h with h1 h2
      exact absurd h1 (by decide))

/-- C1 counterexample: `URLFormat` breaks the round-trip invariant.  The
string `e.com<TAB>x` is accepted (the regex match `e.com` ends at a word
boundary before the tab, and `urlparse` strips the tab from the netloc), but
its serialization `http://e.comx` is rejected with code `format` when
re-validated: `comx` is not an allow-listed top-level domain and no shorter
match ends at a word boundary. -/
theorem C1_counterexample_url :
    urlValidate ("e.com\tx").data =
      .ok ⟨("http").data, ("e.comx").data, [], [], [], []⟩ ∧
    urlSerialize (some ⟨("http").data, ("e.comx").data, [], [], [], []⟩) =
      some ("http://e.comx").data ∧
    urlValidate ("http://e.comx").data = .error .format := by
  refine ⟨by decide, by decide, by decide⟩

/-- C1 (amended): the round-trip invariant — serializing a value produced by
`validate` yields a string that re-validates to an equal value — holds for
`DateFormat`, `TimeFormat`, `DateTimeFormat`, `UUIDFormat` and `EmailFormat`
(but not for `URLFormat`). -/
theorem C1_round_trip :
    (∀ s v, dateValidate s = .ok v →
      ∃ t, dateSerialize (some v) = some t ∧ dateValidate t = .ok v) ∧
    (∀ s v, timeValidate s = .ok v →
      ∃ t, timeSerialize (some v) = some t ∧ timeValidate t = .ok v) ∧
    (∀ s v, dtValidate s = .ok v →
      ∃ t, dtSerialize (some v) = some t ∧ dtValidate t = .ok v) ∧
    (∀ s u, uuidValidate s = .ok u →
      ∃ t, uuidSerialize (some u) = some t ∧ uuidValidate t = .ok u) ∧
    (∀ s v, emailValidate s = .ok v →
      ∃ t, emailSerialize (some v) = some t ∧ emailValidate t = .ok v) := by
  refine ⟨?_, ?_, ?_, ?_, ?_⟩
  · intro s v h
    exact ⟨dateIso v, rfl, dateValidate_iso (dateValidate_ok_valid h)⟩
  · intro s v h
    exact ⟨timeIso v, rfl, timeValidate_iso (timeValidate_ok_valid h)⟩
  · intro s v h
    obtain ⟨hd, htm, htz⟩ := dtValidate_ok_valid h
    exact dtSerialize_validate hd htm htz
  · intro s u h
    obtain ⟨h1, h2⟩ := uuidValidate_serialize h
    exact ⟨uuidStr u, h1, h2⟩
  · intro s v h
    refine ⟨v, rfl, ?_⟩
    unfold emailValidate at h ⊢
    by_cases ha : emailAccept s = true
    · rw [if_pos ha] at h
      cases h
      rw [if_pos ha]
    · rw [if_neg ha] at h
      exact absurd h (by simp)

set_option maxRecDepth 8192 in
/-- C1 witness: the round-trip theorem at one concrete accepted string per
converter. -/
theorem C1_round_trip_witness :
    (∃ t, dateSerialize (some ⟨2021, 2, 3⟩) = some t ∧
      dateValidate t = .ok ⟨2021, 2, 3⟩) ∧
    (∃ t, timeSerialize (some ⟨4, 5, 0, 0⟩) = some t ∧
      timeValidate t = .ok ⟨4, 5, 0, 0⟩) ∧
    (∃ t, dtSerialize (some ⟨2021, 6, 1, 2, 3, 0, 0, some 0⟩) = some t ∧
      dtValidate t = .ok ⟨2021, 6, 1, 2, 3, 0, 0, some 0⟩) ∧
    (∃ t, uuidSerialize (some 113059749145936325402354257176981405696) = some t ∧
      uuidValidate t = .ok 113059749145936325402354257176981405696) ∧
    (∃ t, emailSerialize (some ("a@b.com").data) = some t ∧
      emailValidate t = .ok ("a@b.com").data) :=
  ⟨C1_round_trip.1 ("2021-2-3").data ⟨2021, 2, 3⟩ (by decide),
   C1_round_trip.2.1 ("4:5").data ⟨4, 5, 0, 0⟩ (by decide),
   C1_round_trip.2.2.1 ("2021-6-1T2:3Z").data ⟨2021, 6, 1, 2, 3, 0, 0, some 0⟩ (by decide),
   C1_round_trip.2.2.2.1 ("550e8400-e29b-41d4-a716-446655440000").data
     113059749145936325402354257176981405696 (by decide),
   C1_round_trip.2.2.2.2 ("a@b.com").data (("a@b.com").data) (by decide)⟩

/-- C5 counterexample: `URLFormat.validate` uses `re.match`, which anchors the
match at position 0 (the spec's "substring search" would be `re.search`):
`example.com` is accepted but ` example.com`, with one leading space of
extraneous text, is rejected with code `format`. -/
theorem C5_counterexample :
    urlValidate (" example.com").data = .error .format ∧
    urlValidate ("example.com").data =
      .ok ⟨("http").data, ("example.com").data, [], [], [], []⟩ := by
  refine ⟨by decide, by decide⟩

/-- C5 (amended): the URL match is anchored at the start of the string — any
leading (ASCII) non-word character makes `validate` fail with code `format`,
because the initial `\b` of `URL_REGEX` cannot match at position 0 — while
extraneous text after the matched span is tolerated (the pattern is not
end-anchored), as on `example.com and more`. -/
theorem C5_match_anchored :
    (∀ (c : Char) (s : List Char), c.toNat < 128 → isWordC c = false →
      urlValidate (c :: s) = .error .format) ∧
    urlValidate ("example.com and more").data =
      .ok ⟨("http").data, ("example.com and more").data, [], [], [], []⟩ := by
  constructor
  · intro c s hascii hw
    have hacc : urlAccept (c :: s) = false := by
      simp [urlAccept, hw]
    simp [urlValidate, hacc]
  · decide

/-- C5 witness: the amended theorem at a leading space. -/
theorem C5_match_anchored_witness :
    urlValidate (' ' :: ("x.com").data) = .error .format :=
  C5_match_anchored.1 ' ' (("x.com").data) (by decide) (by decide)

/-- C7: `DateTimeFormat.validate` turns the optional trailing timezone
designator into an offset exactly as the spec says: `Z` is UTC (offset 0), a
signed designator contributes the sign from its first character, hours from
its next two digits, and minutes from its last two digits when it is longer
than 3 characters (else zero) — so `+05:30` is +330 minutes — and an absent
designator leaves the value timezone-naive. -/
theorem C7_timezone_designator :
    tzOffset? none = .ok none ∧
    tzOffset? (some ['Z']) = .ok (some 0) ∧
    (∀ g : List Char, g ≠ ['Z'] →
      ∀ δ : Int,
        δ = (if g.head? = some '-' then
               -((natOfDigits ((g.drop 1).take 2) : Int) * 60 +
                 (if g.length > 3 then (natOfDigits (g.drop (g.length - 2)) : Int) else 0))
             else
               (natOfDigits ((g.drop 1).take 2) : Int) * 60 +
                 (if g.length > 3 then (natOfDigits (g.drop (g.length - 2)) : Int) else 0)) →
        -1440 < δ → δ < 1440 → tzOffset? (some g) = .ok (some δ)) ∧
    dtValidate ("2021-06-01T12:00:00+05:30").data = .ok ⟨2021, 6, 1, 12, 0, 0, 0, some 330⟩ ∧
    dtValidate ("2021-06-01T12:00:00Z").data = .ok ⟨2021, 6, 1, 12, 0, 0, 0, some 0⟩ ∧
    dtValidate ("2021-06-01T12:00:00").data = .ok ⟨2021, 6, 1, 12, 0, 0, 0, none⟩ := by
  refine ⟨rfl, rfl, ?_, by decide, by decide, by decide⟩
  intro g hZ δ hδ h1 h2
  have hc := And.intro h1 h2
  by_cases hneg : g.head? = some '-' <;> by_cases hlen : g.length > 3
  · simp only [if_pos hneg, if_pos hlen] at hδ
    subst hδ
    simp only [tzOffset?, if_neg hZ, if_pos hneg, if_pos hlen]
    rw [if_pos hc]
  · simp only [if_pos hneg, if_neg hlen] at hδ
    subst hδ
    simp only [tzOffset?, if_neg hZ, if_pos hneg, if_neg hlen, Nat.cast_zero]
    rw [if_pos hc]
  · simp only [if_neg hneg, if_pos hlen] at hδ
    subst hδ
    simp only [tzOffset?, if_neg hZ, if_neg hneg, if_pos hlen]
    rw [if_pos hc]
  · simp only [if_neg hneg, if_neg hlen] at hδ
    subst hδ
    simp only [tzOffset?, if_neg hZ, if_neg hneg, if_neg hlen, Nat.cast_zero]
    rw [if_pos hc]

/-- C7 witness: the designator `+05:30` yields a +330-minute offset. -/
theorem C7_timezone_designator_witness :
    tzOffset? (some ("+05:30").data) = .ok (some 330) :=
  C7_timezone_designator.2.2.1 (("+05:30").data) (by decide) 330 (by decide)
    (by decide) (by decide)

/-- C9: `DateTimeFormat.serialize` returns `isoformat()` except that a
trailing `+00:00` (which the rendering produces exactly for a UTC value,
offset 0) is rewritten to the single character `Z`; a naive value or a
non-zero offset is serialized as its ISO string unchanged, and serializing
the parse of `2021-06-01T12:00:00Z` gives back `2021-06-01T12:00:00Z`. -/
theorem C9_utc_z_rewrite :
    (∀ v : PyDateTime, v.tz = some 0 →
      List.isSuffixOf ['+', '0', '0', ':', '0', '0'] (dtIso v) = true ∧
      dtSerialize (some v) =
        some ((dtIso v).take ((dtIso v).length - 6) ++ ['Z'])) ∧
    (∀ v : PyDateTime, v.tz = none → dtSerialize (some v) = some (dtIso v)) ∧
    (∀ (v : PyDateTime) (off : Int), v.tz = some off → 0 < off.natAbs →
      off.natAbs < 1440 → dtSerialize (some v) = some (dtIso v)) ∧
    (∃ v, dtValidate ("2021-06-01T12:00:00Z").data = .ok v ∧
      dtSerialize (some v) = some ("2021-06-01T12:00:00Z").data) := by
  refine ⟨?_, ?_, ?_, ⟨⟨2021, 6, 1, 12, 0, 0, 0, some 0⟩, by decide, by decide⟩⟩
  · intro v htz
    have hiso : dtIso v =
        (pad4 v.year ++ '-' :: pad2 v.month ++ '-' :: pad2 v.day ++
          'T' :: pad2 v.hour ++ ':' :: pad2 v.minute ++ ':' :: pad2 v.second ++
          (if v.microsecond = 0 then [] else '.' :: pad6 v.microsecond)) ++
          ['+', '0', '0', ':', '0', '0'] := by
      have h0 : tzIso 0 = ['+', '0', '0', ':', '0', '0'] := by decide
      simp [dtIso, htz, h0, List.append_assoc]
    have hsuf : List.isSuffixOf ['+', '0', '0', ':', '0', '0'] (dtIso v) = true := by
      rw [List.isSuffixOf_iff_suffix, hiso]
      exact List.suffix_append _ _
    refine ⟨hsuf, ?_⟩
    simp only [dtSerialize]
    rw [if_pos hsuf]
  · intro v htz
    have hnot : ¬ (['+', '0', '0', ':', '0', '0'] <:+ dtIso v) := by
      by_cases hμ : v.microsecond = 0
      · have hiso : dtIso v =
            (pad4 v.year ++ '-' :: pad2 v.month ++ '-' :: pad2 v.day ++
              'T' :: pad2 v.hour) ++ (':' :: pad2 v.minute ++ ':' :: pad2 v.second) := by
          simp [dtIso, htz, hμ, List.append_assoc]
        rw [hiso, suffix_iff_eq_of_length (by simp [pad2])]
        simp [pad2]
      · have hiso : dtIso v =
            (pad4 v.year ++ '-' :: pad2 v.month ++ '-' :: pad2 v.day ++
              'T' :: pad2 v.hour ++ ':' :: pad2 v.minute ++ ':' :: pad2 v.second ++
              ['.']) ++ pad6 v.microsecond := by
          simp [dtIso, htz, hμ, List.append_assoc]
        rw [hiso, suffix_iff_eq_of_length (by simp [pad6])]
        intro heq
        simp only [pad6] at heq
        injection heq with e1 _
        exact digitChar_ne_plus_all _ e1.symm
    have hne : ¬ (List.isSuffixOf ['+', '0', '0', ':', '0', '0'] (dtIso v) = true) :=
      fun hb => hnot (List.isSuffixOf_iff_suffix.mp hb)
    simp only [dtSerialize]
    rw [if_neg hne]
  · intro v off htz h0 hlt
    have hiso : dtIso v =
        (pad4 v.year ++ '-' :: pad2 v.month ++ '-' :: pad2 v.day ++
          'T' :: pad2 v.hour ++ ':' :: pad2 v.minute ++ ':' :: pad2 v.second ++
          (if v.microsecond = 0 then [] else '.' :: pad6 v.microsecond)) ++
          tzIso off := by
      simp [dtIso, htz, List.append_assoc]
    have hnot : ¬ (['+', '0', '0', ':', '0', '0'] <:+ dtIso v) := by
      rw [hiso, suffix_iff_eq_of_length (by simp [tzIso_length])]
      intro heq
      by_cases hoff : off < 0
      · simp only [tzIso, if_pos hoff] at heq
        injection heq with e1 _
        exact absurd e1 (by decide)
      · simp only [tzIso, if_neg hoff, pad2, List.cons_append, List.nil_append] at heq
        simp only [List.cons.injEq] at heq
        obtain ⟨-, e1, e2, -, e3, e4, -⟩ := heq
        have hb1 : off.natAbs / 60 / 10 < 10 := by omega
        have hb2 : off.natAbs / 60 % 10 < 10 := by omega
        have hb3 : off.natAbs % 60 / 10 < 10 := by omega
        have hb4 : off.natAbs % 60 % 10 < 10 := by omega
        have z1 := (digitChar_eq_zero hb1).mp e1.symm
        have z2 := (digitChar_eq_zero hb2).mp e2.symm
        have z3 := (digitChar_eq_zero hb3).mp e3.symm
        have z4 := (digitChar_eq_zero hb4).mp e4.symm
        omega
    have hne : ¬ (List.isSuffixOf ['+', '0', '0', ':', '0', '0'] (dtIso v) = true) :=
      fun hb => hnot (List.isSuffixOf_iff_suffix.mp hb)
    simp only [dtSerialize]
    rw [if_neg hne]

/-- C9 witness: the three general parts at concrete values with UTC, naive and
+05:30 timezones. -/
theorem C9_utc_z_rewrite_witness :
    (List.isSuffixOf ['+', '0', '0', ':', '0', '0']
        (dtIso ⟨2021, 6, 1, 12, 0, 0, 0, some 0⟩) = true ∧
      dtSerialize (some ⟨2021, 6, 1, 12, 0, 0, 0, some 0⟩) =
        some ((dtIso ⟨2021, 6, 1, 12, 0, 0, 0, some 0⟩).take
          ((dtIso ⟨2021, 6, 1, 12, 0, 0, 0, some 0⟩).length - 6) ++ ['Z'])) ∧
    dtSerialize (some ⟨2021, 6, 1, 12, 0, 0, 0, none⟩) =
      some (dtIso ⟨2021, 6, 1, 12, 0, 0, 0, none⟩) ∧
    dtSerialize (some ⟨2021, 6, 1, 12, 0, 0, 0, some 330⟩) =
      some (dtIso ⟨2021, 6, 1, 12, 0, 0, 0, some 330⟩) :=
  ⟨C9_utc_z_rewrite.1 ⟨2021, 6, 1, 12, 0, 0, 0, some 0⟩ rfl,
   C9_utc_z_rewrite.2.1 ⟨2021, 6, 1, 12, 0, 0, 0, none⟩ rfl,
   C9_utc_z_rewrite.2.2.1 ⟨2021, 6, 1, 12, 0, 0, 0, some 330⟩ 330 rfl (by decide)
     (by decide)⟩
